import Mathlib

/-!
Verification of the flame-graph core of the `performance-eng` repository
(`01-flame-graph-generator/scripts/flamegraph.py` and `flamediff.py`).

The two Python classes `Frame` and `DiffFrame` share the same tree shape
(name, sample-count payload, ordered children deduplicated by name); we embed
them as one payload-parametric tree `PTree α` and instantiate the payload:
  * `Frame`     := `PTree (Nat × Nat)` with `val = (count, self_count)`
  * `DiffFrame` := `PTree ((Nat × Nat) × (Nat × Nat))` with
                   `val = ((count_a, count_b), (self_a, self_b))`
Counts are Python ints; after the parser's coercion they are positive, so we
use `Nat`.  Rendering geometry is embedded over `ℚ` (Python floats are used
only for ratios of integers here; the claims under study are order/equality
facts that are exact in `ℚ`).
-/

namespace PerfEng

/-- Tree node shared by `Frame` (flamegraph.py lines 22-51) and `DiffFrame`
(flamediff.py lines 20-60): a name, a count payload, and the ordered child
list.  The Python `child_map` only memoizes name-lookup into `children`
(`add_child`, lines 32-38), so the list with first-match lookup is the whole
state. -/
inductive PTree (α : Type) where
  | mk (name : String) (val : α) (children : List (PTree α))

namespace PTree

variable {α : Type}

def name : PTree α → String
  | .mk n _ _ => n

def val : PTree α → α
  | .mk _ v _ => v

def children : PTree α → List (PTree α)
  | .mk _ _ ch => ch

/-- Add `a` to the node's own count payload (a `node.count += count` step). -/
def bump [Add α] : PTree α → α → PTree α
  | .mk n v ch, a => .mk n (v + a) ch

@[simp] theorem name_mk (n : String) (v : α) (ch : List (PTree α)) :
    name (PTree.mk n v ch) = n := rfl

@[simp] theorem val_mk (n : String) (v : α) (ch : List (PTree α)) :
    val (PTree.mk n v ch) = v := rfl

@[simp] theorem children_mk (n : String) (v : α) (ch : List (PTree α)) :
    children (PTree.mk n v ch) = ch := rfl

@[simp] theorem bump_mk [Add α] (n : String) (v : α) (ch : List (PTree α)) (a : α) :
    bump (PTree.mk n v ch) a = PTree.mk n (v + a) ch := rfl

end PTree

/-- `Frame.add_child` (flamegraph.py lines 32-38) followed by the per-frame
count update, as one list operation: apply `g` to the first child named `fn`,
or append `dflt` when no child has that name (Python dict `child_map` keys are
exactly the child names, and `children` holds each name once). -/
def replaceFirst {α : Type} (fn : String) (g : PTree α → PTree α) (dflt : PTree α) :
    List (PTree α) → List (PTree α)
  | [] => [dflt]
  | c :: cs => if c.name = fn then g c :: cs else c :: replaceFirst fn g dflt cs

/-- The per-line tree walk of `parse_folded` (flamegraph.py lines 81-86) and
`build_diff_tree` (flamediff.py lines 102-112) below the root: descend the
path, adding `inc` to every node entered (the `node.count += count` updates)
and `leafE` to the final node (the `self_count += count` update).  New nodes
start at `inc` (created with zero counts, then immediately bumped). -/
def insP {α : Type} [Add α] (inc leafE : α) : List String → PTree α → PTree α
  | [], .mk n v ch => .mk n (v + leafE) ch
  | fn :: rest, .mk n v ch =>
      .mk n v (replaceFirst fn (fun c => insP inc leafE rest (c.bump inc))
        (insP inc leafE rest (.mk fn inc [])) ch)

-- ── Stack parser (flamegraph.py lines 56-88 / flamediff.py lines 65-85) ──
-- Python string primitives are modelled at the `List Char` level with
-- structural recursion so that the kernel can evaluate them.

/-- `line.strip()`: drop whitespace from both ends. -/
def pyStrip (cs : List Char) : List Char :=
  ((cs.dropWhile Char.isWhitespace).reverse.dropWhile Char.isWhitespace).reverse

/-- `line.rfind(' ')` splitting: `some (before, after)` around the last space,
`none` when the line has no space (flamegraph.py lines 66-70). -/
def rfindSpace : List Char → Option (List Char × List Char)
  | [] => none
  | c :: rest =>
    match rfindSpace rest with
    | some p => some (c :: p.1, p.2)
    | none => if c = ' ' then some ([], rest) else none

/-- Decimal-digit accumulator for `pyToInt`. -/
def decDigitsAux : Nat → List Char → Option Nat
  | acc, [] => some acc
  | acc, c :: cs =>
    if c.isDigit then decDigitsAux (acc * 10 + (c.toNat - 48)) cs else none

/-- Python `int(token)` on a space-free token: optional sign followed by a
nonempty run of decimal digits (digit-grouping underscores and non-ASCII
digits, which Python would also accept, are treated as parse failures). -/
def pyToInt : List Char → Option Int
  | [] => none
  | '+' :: ds => if ds = [] then none else (decDigitsAux 0 ds).map Int.ofNat
  | '-' :: ds => if ds = [] then none else (decDigitsAux 0 ds).map (fun n => -(n : Int))
  | ds => (decDigitsAux 0 ds).map Int.ofNat

/-- `stack_str.split(';')` (flamegraph.py line 79). -/
def splitSemi : List Char → List (List Char)
  | [] => [[]]
  | c :: cs =>
    if c = ';' then [] :: splitSemi cs
    else
      match splitSemi cs with
      | [] => [[c]]
      | w :: ws => (c :: w) :: ws

/-- `stack_str.split(';')` on a `String`, giving the frame names. -/
def pySplitSemi (s : String) : List String :=
  (splitSemi s.toList).map String.mk

/-- `int(line[idx+1:])` with the two fallbacks (flamegraph.py lines 71-76):
a token that does not parse as an integer counts as 1, and a parsed value
`≤ 0` is coerced to 1. -/
def parseCount (tok : List Char) : Nat :=
  match pyToInt tok with
  | none => 1
  | some k => if k ≤ 0 then 1 else k.toNat

/-- One iteration of the parser loop (flamegraph.py lines 60-79): strip the
line; skip it when empty, when it starts with `#`, or when it has no space;
otherwise return the stack string and the (coerced) count. -/
def parseLine (line : String) : Option (String × Nat) :=
  let l := pyStrip line.toList
  if l = [] then none
  else if l.head? = some '#' then none
  else
    match rfindSpace l with
    | none => none
    | some p => some (String.mk p.1, parseCount p.2)

/-- `Frame` of flamegraph.py: payload `(count, self_count)`. -/
abbrev Frame := PTree (Nat × Nat)

def Frame.count (f : Frame) : Nat := f.val.1

def Frame.self_count (f : Frame) : Nat := f.val.2

/-- The body of the `for func in funcs` walk for one parsed line
(flamegraph.py lines 81-86): bump the root's count, then insert the path,
bumping counts along it and the self count at its end. -/
def addStack (f : Frame) (funcs : List String) (count : Nat) : Frame :=
  insP (count, 0) (0, count) funcs (f.bump (count, 0))

/-- One iteration of the `parse_folded` loop body (flamegraph.py lines
60-86): skipped lines leave the state alone; an accepted line updates tree
and total. -/
def parseStep (acc : Frame × Nat) (line : String) : Frame × Nat :=
  match parseLine line with
  | none => acc
  | some sc => (addStack acc.1 (pySplitSemi sc.1) sc.2, acc.2 + sc.2)

/-- `parse_folded` of flamegraph.py (lines 56-88): fold the per-line parser
over the input, building the tree and the running total. -/
def parse_folded (lines : List String) : Frame × Nat :=
  lines.foldl parseStep (PTree.mk "root" (0, 0) [], 0)

-- ── flamediff.py: aggregated parsing and the differential tree ─────────

/-- `stacks[stack_str] += count` on the `defaultdict(int)` (flamediff.py
line 83), modelled on an association list in insertion order with unique
keys: add to the existing entry or append a fresh one. -/
def upsert (m : List (String × Nat)) (k : String) (v : Nat) : List (String × Nat) :=
  match m with
  | [] => [(k, v)]
  | e :: rest => if e.1 = k then (e.1, e.2 + v) :: rest else e :: upsert rest k v

/-- One iteration of the flamediff.py `parse_folded` loop body. -/
def diffParseStep (acc : List (String × Nat) × Nat) (line : String) :
    List (String × Nat) × Nat :=
  match parseLine line with
  | none => acc
  | some sc => (upsert acc.1 sc.1 sc.2, acc.2 + sc.2)

/-- `parse_folded` of flamediff.py (lines 65-85): same line handling as the
single-profile parser, but aggregating into a `{stack_string: count}` map
plus the running total. -/
def parse_folded_diff (lines : List String) : List (String × Nat) × Nat :=
  lines.foldl diffParseStep ([], 0)

/-- `stacks.get(stack_str, 0)` (flamediff.py lines 98-99). -/
def lookup0 (m : List (String × Nat)) (k : String) : Nat :=
  match m.find? (fun e => e.1 = k) with
  | some e => e.2
  | none => 0

/-- `set(stacks_a.keys()) | set(stacks_b.keys())` (flamediff.py line 95).
Python iterates the union in an unspecified hash order; we fix the order
"keys of `a`, then keys of `b` not in `a`" (the determinism theorem below
shows the built tree is, after sorting, independent of this order). -/
def unionKeys (sa sb : List (String × Nat)) : List String :=
  sa.map Prod.fst ++ (sb.map Prod.fst).filter (fun k => !(sa.map Prod.fst).contains k)

/-- `DiffFrame` of flamediff.py: payload `((count_a, count_b), (self_a, self_b))`. -/
abbrev DiffFrame := PTree ((Nat × Nat) × (Nat × Nat))

def DiffFrame.count_a (f : DiffFrame) : Nat := f.val.1.1

def DiffFrame.count_b (f : DiffFrame) : Nat := f.val.1.2

def DiffFrame.self_a (f : DiffFrame) : Nat := f.val.2.1

def DiffFrame.self_b (f : DiffFrame) : Nat := f.val.2.2

/-- `max(self.count_a, self.count_b)` (flamediff.py lines 33-35). -/
def DiffFrame.count (f : DiffFrame) : Nat := max (DiffFrame.count_a f) (DiffFrame.count_b f)

/-- The per-path walk of `build_diff_tree` (flamediff.py lines 101-112). -/
def addDiffStack (t : DiffFrame) (funcs : List String) (ca cb : Nat) : DiffFrame :=
  insP ((ca, cb), (0, 0)) ((0, 0), (ca, cb)) funcs (t.bump ((ca, cb), (0, 0)))

/-- One iteration of the `for stack_str in all_stacks` loop (flamediff.py
lines 97-112). -/
def diffTreeStep (sa sb : List (String × Nat)) (root : DiffFrame) (k : String) : DiffFrame :=
  addDiffStack root (pySplitSemi k) (lookup0 sa k) (lookup0 sb k)

/-- `build_diff_tree` (flamediff.py lines 88-114): walk every stack of either
profile through the merged tree (the `total_a`/`total_b` arguments are taken
but unused, as in the source). -/
def build_diff_tree (sa : List (String × Nat)) (ta : Nat)
    (sb : List (String × Nat)) (tb : Nat) : DiffFrame :=
  (unionKeys sa sb).foldl (diffTreeStep sa sb) (PTree.mk "root" ((0, 0), (0, 0)) [])

-- ── Per-node invariant of the single-mode tree (claim C1) ──────────────

/-- Sum of the inclusive counts of a list of frames. -/
def sumCount (l : List Frame) : Nat := (l.map Frame.count).sum

mutual

/-- `count = self_count + Σ children count` at this node and recursively at
every descendant. -/
def wfF : Frame → Bool
  | .mk _ v ch => (v.1 == v.2 + sumCount ch) && wfL ch

def wfL : List Frame → Bool
  | [] => true
  | c :: cs => wfF c && wfL cs

end

-- ── `sort_children` (flamegraph.py lines 40-43 / flamediff.py 49-52) ───

variable {α : Type}

/-- Stable insertion into a name-sorted list (the building block of our model
of Python's stable `list.sort(key=lambda f: f.name)`). -/
def insertByName (g : PTree α) : List (PTree α) → List (PTree α)
  | [] => [g]
  | c :: cs => if g.name ≤ c.name then g :: c :: cs else c :: insertByName g cs

mutual

/-- `sort_children`: recursively sort every node's children by name. -/
def sortTree : PTree α → PTree α
  | .mk n v ch => .mk n v (sortList ch)

/-- Sort a child list by name (stable insertion sort) and recurse into each. -/
def sortList : List (PTree α) → List (PTree α)
  | [] => []
  | c :: cs => insertByName (sortTree c) (sortList cs)

end

/-- Sibling names are unique throughout the tree (`child_map` semantics). -/
def nodupNames : List (PTree α) → Bool
  | [] => true
  | c :: cs => !(cs.any (fun d => d.name == c.name)) && nodupNames cs

mutual

def uniqT : PTree α → Bool
  | .mk _ _ ch => nodupNames ch && uniqL ch

def uniqL : List (PTree α) → Bool
  | [] => true
  | c :: cs => uniqT c && uniqL cs

end

-- quick sanity checks of the embedding on the spec's end-to-end examples
example : (parse_folded ["a;b 10"]).2 = 10 := by decide
example : (parse_folded ["a;b 10"]).1 =
    PTree.mk "root" (10, 0) [PTree.mk "a" (10, 0) [PTree.mk "b" (10, 10) []]] := rfl
example : parseLine "# comment" = none := by decide
example : parseLine "bad_line_no_count" = none := by decide
example : parseLine "x;y 3" = some ("x;y", 3) := by decide
example : parseLine "x;y 0" = some ("x;y", 1) := by decide
example : parseLine "x;y -7" = some ("x;y", 1) := by decide
example : parseLine "x;y abc" = some ("x;y", 1) := by decide

-- ── Basic lemmas about the tree operations ─────────────────────────────

@[simp] theorem sumCount_nil : sumCount [] = 0 := rfl

@[simp] theorem sumCount_cons (x : Frame) (xs : List Frame) :
    sumCount (x :: xs) = Frame.count x + sumCount xs := by
  simp [sumCount]

@[simp] theorem wfL_nil : wfL [] = true := rfl

@[simp] theorem wfL_cons (c : Frame) (cs : List Frame) :
    wfL (c :: cs) = (wfF c && wfL cs) := by
  rw [wfL]

theorem wfF_mk (n : String) (v : Nat × Nat) (ch : List Frame) :
    wfF (PTree.mk n v ch) = ((v.1 == v.2 + sumCount ch) && wfL ch) := by
  rw [wfF]

@[simp] theorem count_mk (n : String) (v : Nat × Nat) (ch : List Frame) :
    Frame.count (PTree.mk n v ch) = v.1 := rfl

@[simp] theorem self_count_mk (n : String) (v : Nat × Nat) (ch : List Frame) :
    Frame.self_count (PTree.mk n v ch) = v.2 := rfl

theorem wfF_iff (t : Frame) : wfF t = true ↔
    Frame.count t = Frame.self_count t + sumCount (PTree.children t) ∧
      wfL (PTree.children t) = true := by
  cases t with
  | mk n v ch => simp [wfF_mk, Frame.count, Frame.self_count]

theorem insP_name {β : Type} [Add β] (inc leafE : β) (p : List String) (t : PTree β) :
    PTree.name (insP inc leafE p t) = PTree.name t := by
  cases p <;> cases t <;> simp [insP]

theorem insP_val_cons {β : Type} [Add β] (inc leafE : β) (fn : String)
    (rest : List String) (t : PTree β) :
    PTree.val (insP inc leafE (fn :: rest) t) = PTree.val t := by
  cases t
  simp [insP]

theorem insP_count (c : Nat) (p : List String) (t : Frame) :
    Frame.count (insP (c, 0) (0, c) p t) = Frame.count t := by
  cases p <;> cases t <;> simp [insP, Frame.count]

theorem sumCount_replaceFirst (fn : String) (g : Frame → Frame) (d : Frame) (c : Nat)
    (hg : ∀ x, Frame.count (g x) = Frame.count x + c) (hd : Frame.count d = c)
    (ch : List Frame) :
    sumCount (replaceFirst fn g d ch) = sumCount ch + c := by
  induction ch with
  | nil => simp [replaceFirst, hd]
  | cons x xs ih =>
    by_cases h : PTree.name x = fn
    · simp [replaceFirst, h, hg]
      omega
    · simp [replaceFirst, h, ih]
      omega

theorem wfL_replaceFirst (fn : String) (g : Frame → Frame) (d : Frame)
    (hg : ∀ x, wfF x = true → wfF (g x) = true) (hd : wfF d = true)
    (ch : List Frame) (hch : wfL ch = true) :
    wfL (replaceFirst fn g d ch) = true := by
  induction ch with
  | nil => simp [replaceFirst, hd]
  | cons x xs ih =>
    simp at hch
    by_cases h : PTree.name x = fn
    · simp [replaceFirst, h, hg x hch.1, hch.2]
    · simp [replaceFirst, h, hch.1, ih hch.2]

-- ── Claim C1: the inclusive/self invariant is preserved by insertion ───

theorem insP_wf : ∀ (p : List String) (t : Frame) (c : Nat),
    wfL (PTree.children t) = true →
    Frame.count t = Frame.self_count t + sumCount (PTree.children t) + c →
    wfF (insP (c, 0) (0, c) p t) = true := by
  intro p
  induction p with
  | nil =>
    intro t c hch hcount
    cases t with
    | mk n v ch =>
      obtain ⟨cnt, slf⟩ := v
      simp at hch hcount
      simp [insP, wfF_mk, hch]
      omega
  | cons fn rest ih =>
    intro t c hch hcount
    cases t with
    | mk n v ch =>
      rw [insP, wfF_mk]
      have hsum :
          sumCount (replaceFirst fn (fun x => insP (c, 0) (0, c) rest (x.bump (c, 0)))
            (insP (c, 0) (0, c) rest (PTree.mk fn (c, 0) [])) ch) = sumCount ch + c := by
        refine sumCount_replaceFirst fn _ _ c (fun x => ?_) ?_ ch
        · rw [insP_count]
          cases x with
          | mk n' v' ch' => simp [PTree.bump]
        · rw [insP_count]
          simp
      have hwl :
          wfL (replaceFirst fn (fun x => insP (c, 0) (0, c) rest (x.bump (c, 0)))
            (insP (c, 0) (0, c) rest (PTree.mk fn (c, 0) [])) ch) = true := by
        refine wfL_replaceFirst fn _ _ (fun x hx => ?_) ?_ ch (by simpa using hch)
        · rcases (wfF_iff x).mp hx with ⟨hcx, hlx⟩
          refine ih (x.bump (c, 0)) c ?_ ?_
          · cases x with
            | mk n' v' ch' => simpa [PTree.bump] using hlx
          · cases x with
            | mk n' v' ch' =>
              simp [PTree.bump]
              simp at hcx
              omega
        · exact ih (PTree.mk fn (c, 0) []) c (by simp) (by simp)
      simp [hsum, hwl]
      simp at hcount
      omega

theorem addStack_wf (f : Frame) (funcs : List String) (c : Nat)
    (hf : wfF f = true) : wfF (addStack f funcs c) = true := by
  rcases (wfF_iff f).mp hf with ⟨hc, hl⟩
  refine insP_wf funcs (f.bump (c, 0)) c ?_ ?_
  · cases f with
    | mk n v ch => simpa [PTree.bump] using hl
  · cases f with
    | mk n v ch =>
      simp [PTree.bump]
      simp at hc
      omega

theorem parse_fold_wf : ∀ (lines : List String) (t : Frame) (tot : Nat),
    wfF t = true → wfF (lines.foldl parseStep (t, tot)).1 = true := by
  intro lines
  induction lines with
  | nil => intro t tot h; simpa using h
  | cons l ls ih =>
    intro t tot h
    rw [List.foldl_cons]
    cases hp : parseLine l with
    | none => simpa [parseStep, hp] using ih t tot h
    | some sc => simpa [parseStep, hp] using ih _ _ (addStack_wf t _ sc.2 h)

/-- C1.  In single-profile mode, every node of the tree built by
`parse_folded` satisfies `count = self_count + Σ (children count)` —
`wfF` checks exactly this equality at the node and, recursively, at every
descendant. -/
theorem C1_inclusive_self_consistency (lines : List String) :
    wfF (parse_folded lines).1 = true := by
  exact parse_fold_wf lines _ 0 (by decide)

-- ── Claim C2: root totals ──────────────────────────────────────────────

theorem addStack_count (f : Frame) (funcs : List String) (c : Nat) :
    Frame.count (addStack f funcs c) = Frame.count f + c := by
  rw [addStack, insP_count]
  cases f with
  | mk n v ch => simp [PTree.bump]

theorem parse_fold_count : ∀ (lines : List String) (t : Frame) (tot : Nat),
    Frame.count t = tot →
    Frame.count (lines.foldl parseStep (t, tot)).1 = (lines.foldl parseStep (t, tot)).2 := by
  intro lines
  induction lines with
  | nil => intro t tot h; simpa using h
  | cons l ls ih =>
    intro t tot h
    rw [List.foldl_cons]
    cases hp : parseLine l with
    | none => simpa [parseStep, hp] using ih t tot h
    | some sc =>
      simp only [parseStep, hp]
      exact ih _ _ (by rw [addStack_count, h])

/-- Sum of the aggregated per-stack counts (`sum(stacks.values())`). -/
def sumValues (m : List (String × Nat)) : Nat := (m.map Prod.snd).sum

theorem insP_count_a (ca cb : Nat) (p : List String) (t : DiffFrame) :
    DiffFrame.count_a (insP ((ca, cb), (0, 0)) ((0, 0), (ca, cb)) p t) =
      DiffFrame.count_a t := by
  cases p <;> cases t <;> simp [insP, DiffFrame.count_a]

theorem insP_count_b (ca cb : Nat) (p : List String) (t : DiffFrame) :
    DiffFrame.count_b (insP ((ca, cb), (0, 0)) ((0, 0), (ca, cb)) p t) =
      DiffFrame.count_b t := by
  cases p <;> cases t <;> simp [insP, DiffFrame.count_b]

theorem addDiffStack_count_a (t : DiffFrame) (funcs : List String) (ca cb : Nat) :
    DiffFrame.count_a (addDiffStack t funcs ca cb) = DiffFrame.count_a t + ca := by
  rw [addDiffStack, insP_count_a]
  cases t with
  | mk n v ch => simp [PTree.bump, DiffFrame.count_a]

theorem addDiffStack_count_b (t : DiffFrame) (funcs : List String) (ca cb : Nat) :
    DiffFrame.count_b (addDiffStack t funcs ca cb) = DiffFrame.count_b t + cb := by
  rw [addDiffStack, insP_count_b]
  cases t with
  | mk n v ch => simp [PTree.bump, DiffFrame.count_b]

theorem diff_fold_count_a (sa sb : List (String × Nat)) :
    ∀ (ks : List String) (t : DiffFrame),
      DiffFrame.count_a (ks.foldl (diffTreeStep sa sb) t) =
        DiffFrame.count_a t + (ks.map (lookup0 sa)).sum := by
  intro ks
  induction ks with
  | nil => intro t; simp
  | cons k ks ih =>
    intro t
    rw [List.foldl_cons]
    rw [ih]
    simp [diffTreeStep, addDiffStack_count_a]
    omega

theorem diff_fold_count_b (sa sb : List (String × Nat)) :
    ∀ (ks : List String) (t : DiffFrame),
      DiffFrame.count_b (ks.foldl (diffTreeStep sa sb) t) =
        DiffFrame.count_b t + (ks.map (lookup0 sb)).sum := by
  intro ks
  induction ks with
  | nil => intro t; simp
  | cons k ks ih =>
    intro t
    rw [List.foldl_cons]
    rw [ih]
    simp [diffTreeStep, addDiffStack_count_b]
    omega

theorem lookup0_cons_self (k : String) (v : Nat) (rest : List (String × Nat)) :
    lookup0 ((k, v) :: rest) k = v := by
  simp [lookup0, List.find?_cons]

theorem lookup0_cons_ne (e : String × Nat) (rest : List (String × Nat)) (k : String)
    (h : e.1 ≠ k) : lookup0 (e :: rest) k = lookup0 rest k := by
  simp [lookup0, List.find?_cons, h]

theorem lookup0_eq_zero_of_not_mem (m : List (String × Nat)) (k : String)
    (h : k ∉ m.map Prod.fst) : lookup0 m k = 0 := by
  induction m with
  | nil => rfl
  | cons e rest ih =>
    have he : e.1 ≠ k := fun hek => h (by simp [← hek])
    rw [lookup0_cons_ne e rest k he]
    exact ih (fun hk => h (by simp [hk]))

theorem sum_lookup0_keys (m : List (String × Nat)) (h : (m.map Prod.fst).Nodup) :
    ((m.map Prod.fst).map (lookup0 m)).sum = sumValues m := by
  induction m with
  | nil => rfl
  | cons e rest ih =>
    obtain ⟨k, v⟩ := e
    rw [List.map_cons, List.nodup_cons] at h
    have hmap : (rest.map Prod.fst).map (lookup0 ((k, v) :: rest)) =
        (rest.map Prod.fst).map (lookup0 rest) := by
      refine List.map_congr_left ?_
      intro k' hk'
      refine lookup0_cons_ne (k, v) rest k' ?_
      intro hkk
      rw [← hkk] at hk'
      exact h.1 hk'
    have hrest := ih h.2
    simp only [List.map_cons, List.sum_cons, lookup0_cons_self, hmap, hrest,
      sumValues]

theorem sum_lookup0_filter (m : List (String × Nat)) (K : List String) :
    (K.map (lookup0 m)).sum =
      ((K.filter (fun k => k ∈ m.map Prod.fst)).map (lookup0 m)).sum := by
  induction K with
  | nil => rfl
  | cons k ks ih =>
    by_cases hk : k ∈ m.map Prod.fst
    · simp [List.filter_cons, hk, ih]
    · simp [List.filter_cons, hk, ih, lookup0_eq_zero_of_not_mem m k hk]

theorem sum_lookup0_superset (m : List (String × Nat)) (K : List String)
    (hK : K.Nodup) (hm : (m.map Prod.fst).Nodup)
    (hsub : ∀ k ∈ m.map Prod.fst, k ∈ K) :
    (K.map (lookup0 m)).sum = sumValues m := by
  rw [sum_lookup0_filter m K]
  have hperm : (K.filter (fun k => k ∈ m.map Prod.fst)).Perm (m.map Prod.fst) := by
    rw [List.perm_ext_iff_of_nodup (hK.filter _) hm]
    intro k
    simp only [List.mem_filter, decide_eq_true_eq]
    constructor
    · exact fun h => h.2
    · exact fun hk => ⟨hsub k hk, hk⟩
  calc ((K.filter (fun k => k ∈ m.map Prod.fst)).map (lookup0 m)).sum
      = ((m.map Prod.fst).map (lookup0 m)).sum := (hperm.map (lookup0 m)).sum_eq
    _ = sumValues m := sum_lookup0_keys m hm

theorem keys_upsert (m : List (String × Nat)) (k : String) (v : Nat) :
    (upsert m k v).map Prod.fst =
      if k ∈ m.map Prod.fst then m.map Prod.fst else m.map Prod.fst ++ [k] := by
  induction m with
  | nil => simp [upsert]
  | cons e rest ih =>
    by_cases he : e.1 = k
    · simp [upsert, he]
    · simp only [upsert, if_neg he, List.map_cons, ih]
      by_cases hk : k ∈ rest.map Prod.fst
      · simp [hk, Ne.symm he]
      · simp [hk, Ne.symm he]

theorem nodup_keys_upsert (m : List (String × Nat)) (k : String) (v : Nat)
    (h : (m.map Prod.fst).Nodup) : ((upsert m k v).map Prod.fst).Nodup := by
  rw [keys_upsert]
  by_cases hk : k ∈ m.map Prod.fst
  · simpa [hk] using h
  · rw [if_neg hk]
    refine List.Nodup.append h (by simp) ?_
    intro x hx hxk
    simp at hxk
    exact hk (hxk ▸ hx)

theorem nodup_keys_parse_diff : ∀ (lines : List String) (m : List (String × Nat)) (tot : Nat),
    (m.map Prod.fst).Nodup → (((lines.foldl diffParseStep (m, tot)).1).map Prod.fst).Nodup := by
  intro lines
  induction lines with
  | nil => intro m tot h; simpa using h
  | cons l ls ih =>
    intro m tot h
    rw [List.foldl_cons]
    cases hp : parseLine l with
    | none => simpa [diffParseStep, hp] using ih m tot h
    | some sc => simpa [diffParseStep, hp] using ih _ _ (nodup_keys_upsert m sc.1 sc.2 h)

theorem nodup_unionKeys (sa sb : List (String × Nat))
    (ha : (sa.map Prod.fst).Nodup) (hb : (sb.map Prod.fst).Nodup) :
    (unionKeys sa sb).Nodup := by
  refine List.Nodup.append ha (hb.filter _) ?_
  intro x hx hxf
  have hc := (List.mem_filter.mp hxf).2
  simp only [Bool.not_eq_true'] at hc
  have hct : (sa.map Prod.fst).contains x = true := by
    rw [List.contains_iff_exists_mem_beq]
    exact ⟨x, hx, by simp⟩
  rw [hct] at hc
  cases hc

theorem mem_unionKeys_left (sa sb : List (String × Nat)) (k : String)
    (h : k ∈ sa.map Prod.fst) : k ∈ unionKeys sa sb := by
  exact List.mem_append_left _ h

theorem mem_unionKeys_right (sa sb : List (String × Nat)) (k : String)
    (h : k ∈ sb.map Prod.fst) : k ∈ unionKeys sa sb := by
  by_cases hk : k ∈ sa.map Prod.fst
  · exact List.mem_append_left _ hk
  · exact List.mem_append_right _ (List.mem_filter.mpr ⟨h, by simpa using hk⟩)

theorem build_diff_tree_count_a (sa sb : List (String × Nat)) (ta tb : Nat)
    (ha : (sa.map Prod.fst).Nodup) (hb : (sb.map Prod.fst).Nodup) :
    DiffFrame.count_a (build_diff_tree sa ta sb tb) = sumValues sa := by
  rw [build_diff_tree, diff_fold_count_a]
  have := sum_lookup0_superset sa (unionKeys sa sb) (nodup_unionKeys sa sb ha hb) ha
    (fun k hk => mem_unionKeys_left sa sb k hk)
  simpa [DiffFrame.count_a] using this

theorem build_diff_tree_count_b (sa sb : List (String × Nat)) (ta tb : Nat)
    (ha : (sa.map Prod.fst).Nodup) (hb : (sb.map Prod.fst).Nodup) :
    DiffFrame.count_b (build_diff_tree sa ta sb tb) = sumValues sb := by
  rw [build_diff_tree, diff_fold_count_b]
  have := sum_lookup0_superset sb (unionKeys sa sb) (nodup_unionKeys sa sb ha hb) hb
    (fun k hk => mem_unionKeys_right sa sb k hk)
  simpa [DiffFrame.count_b] using this

/-- C2.  Root totals: in single mode the root's inclusive count equals the
total returned by `parse_folded`; in differential mode the root's `count_a`
(resp. `count_b`) equals the sum of all aggregated before- (resp. after-)
profile counts. -/
theorem C2_root_totals :
    (∀ lines : List String, Frame.count (parse_folded lines).1 = (parse_folded lines).2) ∧
    (∀ linesA linesB : List String,
      DiffFrame.count_a (build_diff_tree (parse_folded_diff linesA).1 (parse_folded_diff linesA).2
          (parse_folded_diff linesB).1 (parse_folded_diff linesB).2) =
        sumValues (parse_folded_diff linesA).1 ∧
      DiffFrame.count_b (build_diff_tree (parse_folded_diff linesA).1 (parse_folded_diff linesA).2
          (parse_folded_diff linesB).1 (parse_folded_diff linesB).2) =
        sumValues (parse_folded_diff linesB).1) := by
  constructor
  · intro lines
    exact parse_fold_count lines _ 0 rfl
  · intro linesA linesB
    have ha := nodup_keys_parse_diff linesA [] 0 (by simp)
    have hb := nodup_keys_parse_diff linesB [] 0 (by simp)
    exact ⟨build_diff_tree_count_a _ _ _ _ ha hb, build_diff_tree_count_b _ _ _ _ ha hb⟩

-- ── Claim C3: per-line parser tolerance ────────────────────────────────

theorem rfindSpace_eq_none_iff (cs : List Char) : rfindSpace cs = none ↔ ' ' ∉ cs := by
  induction cs with
  | nil => simp [rfindSpace]
  | cons c rest ih =>
    rw [rfindSpace]
    cases h : rfindSpace rest with
    | some p =>
      have hmem : ' ' ∈ rest := by
        by_contra hno
        rw [ih.mpr hno] at h
        cases h
      simp [hmem]
    | none =>
      by_cases hc : c = ' '
      · simp [hc]
      · have hnr := ih.mp h
        have hcs : ¬(' ' = c) := fun hsp => hc hsp.symm
        simp [hc, hnr, hcs]

theorem parseCount_pos (tok : List Char) : 1 ≤ parseCount tok := by
  unfold parseCount
  cases h : pyToInt tok with
  | none => simp
  | some k =>
    by_cases hk : k ≤ 0
    · simp [hk]
    · simp only [hk, if_false]
      omega

/-- Closed form of `parseLine`, for controlled rewriting. -/
theorem parseLine_eq (line : String) :
    parseLine line =
      (if pyStrip line.toList = [] then none
       else if (pyStrip line.toList).head? = some '#' then none
       else
         match rfindSpace (pyStrip line.toList) with
         | none => none
         | some p => some (String.mk p.1, parseCount p.2)) := rfl

theorem parseLine_count_pos (line s : String) (c : Nat)
    (h : parseLine line = some (s, c)) : 1 ≤ c := by
  rw [parseLine_eq] at h
  by_cases hnil : pyStrip line.toList = []
  · rw [if_pos hnil] at h
    cases h
  · rw [if_neg hnil] at h
    by_cases hh : (pyStrip line.toList).head? = some '#'
    · rw [if_pos hh] at h
      cases h
    · rw [if_neg hh] at h
      cases hfind : rfindSpace (pyStrip line.toList) with
      | none =>
        rw [hfind] at h
        cases h
      | some p =>
        rw [hfind] at h
        have hc : parseCount p.2 = c := congrArg (fun x => x.2) (Option.some.inj h)
        rw [← hc]
        exact parseCount_pos p.2

/-- C3.  The parser skips blank (after stripping) lines, `#` lines, and
space-free lines; a non-integer trailing token yields count 1; a parsed
count `≤ 0` is coerced to 1; and no line fails: every line is either
skipped or parsed with a count `≥ 1`. -/
theorem C3_parser_tolerance :
    (∀ line : String, pyStrip line.toList = [] → parseLine line = none) ∧
    (∀ line : String, (pyStrip line.toList).head? = some '#' → parseLine line = none) ∧
    (∀ line : String, ' ' ∉ pyStrip line.toList → parseLine line = none) ∧
    (∀ (line : String) (b a : List Char),
      (pyStrip line.toList).head? ≠ some '#' →
      rfindSpace (pyStrip line.toList) = some (b, a) →
      pyToInt a = none →
      parseLine line = some (String.mk b, 1)) ∧
    (∀ (line : String) (b a : List Char) (k : Int),
      (pyStrip line.toList).head? ≠ some '#' →
      rfindSpace (pyStrip line.toList) = some (b, a) →
      pyToInt a = some k → k ≤ 0 →
      parseLine line = some (String.mk b, 1)) ∧
    (∀ line : String, parseLine line = none ∨
      ∃ s c, parseLine line = some (s, c) ∧ 1 ≤ c) := by
  refine ⟨?_, ?_, ?_, ?_, ?_, ?_⟩
  · intro line h
    rw [parseLine_eq, if_pos h]
  · intro line h
    have hne : pyStrip line.toList ≠ [] := by
      intro hnil
      rw [hnil] at h
      cases h
    rw [parseLine_eq, if_neg hne, if_pos h]
  · intro line h
    rw [← rfindSpace_eq_none_iff] at h
    by_cases hnil : pyStrip line.toList = []
    · rw [parseLine_eq, if_pos hnil]
    · by_cases hh : (pyStrip line.toList).head? = some '#'
      · rw [parseLine_eq, if_neg hnil, if_pos hh]
      · rw [parseLine_eq, if_neg hnil, if_neg hh, h]
  · intro line b a hh hfind hint
    have hne : pyStrip line.toList ≠ [] := by
      intro hnil
      rw [hnil] at hfind
      cases hfind
    rw [parseLine_eq, if_neg hne, if_neg hh, hfind]
    simp [parseCount, hint]
  · intro line b a k hh hfind hint hk
    have hne : pyStrip line.toList ≠ [] := by
      intro hnil
      rw [hnil] at hfind
      cases hfind
    rw [parseLine_eq, if_neg hne, if_neg hh, hfind]
    simp [parseCount, hint, hk]
  · intro line
    cases hp : parseLine line with
    | none => exact Or.inl rfl
    | some sc =>
      exact Or.inr ⟨sc.1, sc.2, by simp [hp], parseLine_count_pos line sc.1 sc.2 (by simp [hp])⟩

/-- Witness for C3 at concrete lines: a comment line, a space-free line, a
non-numeric count, and a negative count. -/
theorem C3_parser_tolerance_witness :
    parseLine "# note" = none ∧ parseLine "bad_line_no_count" = none ∧
    parseLine "x;y abc" = some ("x;y", 1) ∧ parseLine "x;y -3" = some ("x;y", 1) := by
  refine ⟨C3_parser_tolerance.2.1 "# note" (by decide),
    C3_parser_tolerance.2.2.1 "bad_line_no_count" (by decide), ?_, ?_⟩
  · exact C3_parser_tolerance.2.2.2.1 "x;y abc" ['x', ';', 'y'] ['a', 'b', 'c']
      (by decide) (by decide) (by decide)
  · exact C3_parser_tolerance.2.2.2.2.1 "x;y -3" ['x', ';', 'y'] ['-', '3'] (-3)
      (by decide) (by decide) (by decide) (by decide)

-- ── Claim C4: aggregation ──────────────────────────────────────────────

theorem sumValues_upsert (m : List (String × Nat)) (k : String) (v : Nat) :
    sumValues (upsert m k v) = sumValues m + v := by
  induction m with
  | nil => simp [upsert, sumValues]
  | cons e rest ih =>
    by_cases he : e.1 = k
    · simp [upsert, he, sumValues]
      omega
    · simp only [upsert, if_neg he, sumValues, List.map_cons, List.sum_cons] at ih ⊢
      omega

theorem diff_fold_total : ∀ (lines : List String) (m : List (String × Nat)) (tot : Nat),
    tot = sumValues m →
    (lines.foldl diffParseStep (m, tot)).2 = sumValues (lines.foldl diffParseStep (m, tot)).1 := by
  intro lines
  induction lines with
  | nil => intro m tot h; simpa using h
  | cons l ls ih =>
    intro m tot h
    rw [List.foldl_cons]
    cases hp : parseLine l with
    | none => simpa [diffParseStep, hp] using ih m tot h
    | some sc =>
      simp only [diffParseStep, hp]
      exact ih _ _ (by rw [sumValues_upsert, h])

/-- C4.  Aggregation: two well-formed lines with the same call-path and
counts `a`, `b` produce a single aggregate entry with count `a + b`, and on
any input the returned total equals the sum of all aggregated counts. -/
theorem C4_aggregation :
    (∀ (l1 l2 s : String) (a b : Nat),
      parseLine l1 = some (s, a) → parseLine l2 = some (s, b) →
      (parse_folded_diff [l1, l2]).1 = [(s, a + b)] ∧
      (parse_folded_diff [l1, l2]).2 = a + b) ∧
    (∀ lines : List String,
      (parse_folded_diff lines).2 = sumValues (parse_folded_diff lines).1) := by
  constructor
  · intro l1 l2 s a b h1 h2
    simp [parse_folded_diff, diffParseStep, h1, h2, upsert]
  · intro lines
    exact diff_fold_total lines [] 0 rfl

/-- Witness for C4 at two concrete lines sharing the call-path `a;b`. -/
theorem C4_aggregation_witness :
    (parse_folded_diff ["a;b 2", "a;b 3"]).1 = [("a;b", 5)] ∧
    (parse_folded_diff ["a;b 2", "a;b 3"]).2 = 5 := by
  exact C4_aggregation.1 "a;b 2" "a;b 3" "a;b" 2 3 (by decide) (by decide)

-- ── Claim C5: delta_color (flamediff.py lines 119-154) ─────────────────
-- Python floats enter only through exact integer ratios and the constants
-- 0.001, 0.3; the embedding computes over ℚ (Python `int(x)` on the
-- nonnegative values that occur here is the floor).

/-- `count / total if total > 0 else 0` (flamediff.py lines 130-131). -/
def rateQ (count total : Nat) : ℚ := if 0 < total then (count : ℚ) / total else 0

/-- `min(abs(diff) / 0.3, 1.0)` (flamediff.py line 141). -/
def intensityQ (diff : ℚ) : ℚ := min (|diff| / (3 / 10)) 1

/-- `max(0, min(255, c))` (flamediff.py line 154). -/
def clampChan (x : Int) : Int := max 0 (min 255 x)

/-- `delta_color` (flamediff.py lines 119-154). -/
def delta_color (count_a count_b total_a total_b : Nat) : Int × Int × Int :=
  if total_a = 0 ∧ total_b = 0 then (200, 200, 200)
  else if |rateQ count_b total_b - rateQ count_a total_a| < 1 / 1000 then (200, 200, 200)
  else if 0 < rateQ count_b total_b - rateQ count_a total_a then
    (clampChan (200 + ⌊55 * intensityQ (rateQ count_b total_b - rateQ count_a total_a)⌋),
     clampChan (200 - ⌊140 * intensityQ (rateQ count_b total_b - rateQ count_a total_a)⌋),
     clampChan (200 - ⌊140 * intensityQ (rateQ count_b total_b - rateQ count_a total_a)⌋))
  else
    (clampChan (200 - ⌊140 * intensityQ (rateQ count_b total_b - rateQ count_a total_a)⌋),
     clampChan (200 - ⌊80 * intensityQ (rateQ count_b total_b - rateQ count_a total_a)⌋),
     clampChan (200 + ⌊55 * intensityQ (rateQ count_b total_b - rateQ count_a total_a)⌋))

theorem clampChan_nonneg (x : Int) : 0 ≤ clampChan x := le_max_left 0 _

theorem clampChan_le_255 (x : Int) : clampChan x ≤ 255 :=
  max_le (by norm_num) (min_le_left _ _)

theorem clampChan_mono {x y : Int} (h : x ≤ y) : clampChan x ≤ clampChan y :=
  max_le_max le_rfl (min_le_min le_rfl h)

theorem intensityQ_nonneg (d : ℚ) : 0 ≤ intensityQ d :=
  le_min (by positivity) (by norm_num)

theorem floor_mul_intensity_nonneg (c : ℚ) (hc : 0 ≤ c) (d : ℚ) :
    0 ≤ ⌊c * intensityQ d⌋ :=
  Int.floor_nonneg.mpr (mul_nonneg hc (intensityQ_nonneg d))

theorem delta_color_channel_range (a b ta tb : Nat) :
    0 ≤ (delta_color a b ta tb).1 ∧ (delta_color a b ta tb).1 ≤ 255 ∧
    0 ≤ (delta_color a b ta tb).2.1 ∧ (delta_color a b ta tb).2.1 ≤ 255 ∧
    0 ≤ (delta_color a b ta tb).2.2 ∧ (delta_color a b ta tb).2.2 ≤ 255 := by
  rw [delta_color]
  by_cases h1 : ta = 0 ∧ tb = 0
  · rw [if_pos h1]
    norm_num
  · rw [if_neg h1]
    by_cases h2 : |rateQ b tb - rateQ a ta| < 1 / 1000
    · rw [if_pos h2]
      norm_num
    · rw [if_neg h2]
      by_cases h3 : 0 < rateQ b tb - rateQ a ta
      · rw [if_pos h3]
        exact ⟨clampChan_nonneg _, clampChan_le_255 _, clampChan_nonneg _,
          clampChan_le_255 _, clampChan_nonneg _, clampChan_le_255 _⟩
      · rw [if_neg h3]
        exact ⟨clampChan_nonneg _, clampChan_le_255 _, clampChan_nonneg _,
          clampChan_le_255 _, clampChan_nonneg _, clampChan_le_255 _⟩

/-- C5.  `delta_color` returns neutral gray when both totals are zero and
when the normalized rate difference is below the 0.001 threshold; a rate
regression of at least the threshold gives a color whose red channel
dominates, an improvement gives one whose blue channel dominates, and all
channels always lie in `[0, 255]`. -/
theorem C5_delta_color_thresholds (a b ta tb : Nat) :
    (ta = 0 → tb = 0 → delta_color a b ta tb = (200, 200, 200)) ∧
    (|rateQ b tb - rateQ a ta| < 1 / 1000 → delta_color a b ta tb = (200, 200, 200)) ∧
    (1 / 1000 ≤ rateQ b tb - rateQ a ta →
      (delta_color a b ta tb).2.1 ≤ (delta_color a b ta tb).1 ∧
      (delta_color a b ta tb).2.2 ≤ (delta_color a b ta tb).1) ∧
    (1 / 1000 ≤ rateQ a ta - rateQ b tb →
      (delta_color a b ta tb).1 ≤ (delta_color a b ta tb).2.2 ∧
      (delta_color a b ta tb).2.1 ≤ (delta_color a b ta tb).2.2) ∧
    (0 ≤ (delta_color a b ta tb).1 ∧ (delta_color a b ta tb).1 ≤ 255 ∧
     0 ≤ (delta_color a b ta tb).2.1 ∧ (delta_color a b ta tb).2.1 ≤ 255 ∧
     0 ≤ (delta_color a b ta tb).2.2 ∧ (delta_color a b ta tb).2.2 ≤ 255) := by
  refine ⟨?_, ?_, ?_, ?_, delta_color_channel_range a b ta tb⟩
  · intro ha hb
    rw [delta_color, if_pos ⟨ha, hb⟩]
  · intro h2
    rw [delta_color]
    by_cases h1 : ta = 0 ∧ tb = 0
    · rw [if_pos h1]
    · rw [if_neg h1, if_pos h2]
  · intro hd
    have h1 : ¬(ta = 0 ∧ tb = 0) := by
      rintro ⟨ha, hb⟩
      rw [ha, hb] at hd
      simp [rateQ] at hd
      linarith
    have h2 : ¬(|rateQ b tb - rateQ a ta| < 1 / 1000) :=
      not_lt.mpr (le_trans hd (le_abs_self _))
    have h3 : 0 < rateQ b tb - rateQ a ta := lt_of_lt_of_le (by norm_num) hd
    rw [delta_color, if_neg h1, if_neg h2, if_pos h3]
    have h55 := floor_mul_intensity_nonneg 55 (by norm_num) (rateQ b tb - rateQ a ta)
    have h140 := floor_mul_intensity_nonneg 140 (by norm_num) (rateQ b tb - rateQ a ta)
    constructor <;> exact clampChan_mono (by omega)
  · intro hd
    have h1 : ¬(ta = 0 ∧ tb = 0) := by
      rintro ⟨ha, hb⟩
      rw [ha, hb] at hd
      simp [rateQ] at hd
      linarith
    have h2 : ¬(|rateQ b tb - rateQ a ta| < 1 / 1000) := by
      rw [abs_sub_comm]
      exact not_lt.mpr (le_trans hd (le_abs_self _))
    have h3 : ¬(0 < rateQ b tb - rateQ a ta) := by
      intro hlt
      linarith
    rw [delta_color, if_neg h1, if_neg h2, if_neg h3]
    have h55 := floor_mul_intensity_nonneg 55 (by norm_num) (rateQ b tb - rateQ a ta)
    have h80 := floor_mul_intensity_nonneg 80 (by norm_num) (rateQ b tb - rateQ a ta)
    have h140 := floor_mul_intensity_nonneg 140 (by norm_num) (rateQ b tb - rateQ a ta)
    constructor <;> exact clampChan_mono (by omega)

/-- Witness for C5: both-zero totals, an under-threshold pair, a clear
regression (red dominates), and a clear improvement (blue dominates). -/
theorem C5_delta_color_witness :
    delta_color 0 0 0 0 = (200, 200, 200) ∧
    delta_color 5 5 10 10 = (200, 200, 200) ∧
    ((delta_color 0 1 1 1).2.1 ≤ (delta_color 0 1 1 1).1 ∧
     (delta_color 0 1 1 1).2.2 ≤ (delta_color 0 1 1 1).1) ∧
    ((delta_color 1 0 1 1).1 ≤ (delta_color 1 0 1 1).2.2 ∧
     (delta_color 1 0 1 1).2.1 ≤ (delta_color 1 0 1 1).2.2) := by
  refine ⟨(C5_delta_color_thresholds 0 0 0 0).1 rfl rfl,
    (C5_delta_color_thresholds 5 5 10 10).2.1 (by norm_num [rateQ]),
    (C5_delta_color_thresholds 0 1 1 1).2.2.1 (by norm_num [rateQ]),
    (C5_delta_color_thresholds 1 0 1 1).2.2.2.1 (by norm_num [rateQ])⟩

-- ── Claim C6: child widths in render_frame (flamegraph.py 181-189) ─────

/-- `MIN_WIDTH_PX` (flamegraph.py line 132). -/
def MIN_WIDTH_PX : ℚ := 1 / 10

/-- The widths `render_frame` assigns to the immediate children of a frame
rendered at width `W` (flamegraph.py line 184):
`x_width * (child.count / frame.count) if frame.count > 0 else 0`. -/
def childWidths (f : Frame) (W : ℚ) : List ℚ :=
  (PTree.children f).map
    (fun c => if 0 < Frame.count f then W * (Frame.count c : ℚ) / (Frame.count f : ℚ) else 0)

theorem sumCount_cast (l : List Frame) :
    ((sumCount l : ℚ)) = (l.map (fun c => (Frame.count c : ℚ))).sum := by
  induction l with
  | nil => simp [sumCount]
  | cons x xs ih =>
    rw [sumCount_cons]
    push_cast
    simp [ih]

theorem sum_childWidths (f : Frame) (W : ℚ) :
    (childWidths f W).sum =
      if 0 < Frame.count f then W * (sumCount (PTree.children f) : ℚ) / (Frame.count f : ℚ)
      else 0 := by
  by_cases hc : 0 < Frame.count f
  · rw [if_pos hc]
    rw [childWidths]
    have : ((PTree.children f).map
        (fun c => if 0 < Frame.count f then W * (Frame.count c : ℚ) / (Frame.count f : ℚ) else 0)) =
        ((PTree.children f).map
          (fun c => (W / (Frame.count f : ℚ)) * (Frame.count c : ℚ))) := by
      refine List.map_congr_left (fun c _ => ?_)
      rw [if_pos hc]
      ring
    rw [this, List.sum_map_mul_left, sumCount_cast]
    ring
  · rw [if_neg hc, childWidths]
    have : ((PTree.children f).map
        (fun c => if 0 < Frame.count f then W * (Frame.count c : ℚ) / (Frame.count f : ℚ) else 0)) =
        ((PTree.children f).map (fun _ => (0 : ℚ))) :=
      List.map_congr_left (fun c _ => by rw [if_neg hc])
    rw [this]
    simp

/-- C6 (amended).  For a node with inclusive count `C > 0` and self count
`s`, the widths `render_frame` hands to its children sum to `W·(C−s)/C` —
equal to the node's own width `W` exactly when `s = 0` — and a node with
count 0 gives all its children width 0.  (The claim is not confirmable as
stated: with `s > 0` the sum falls short of `W`; see the counterexample.) -/
theorem C6_width_conservation_amended (f : Frame) (W : ℚ) (h : wfF f = true) :
    (0 < Frame.count f →
      (childWidths f W).sum =
        W * ((Frame.count f : ℚ) - (Frame.self_count f : ℚ)) / (Frame.count f : ℚ)) ∧
    (Frame.count f = 0 → (childWidths f W).sum = 0) ∧
    (Frame.self_count f = 0 → 0 < Frame.count f → (childWidths f W).sum = W) := by
  have hsum := sum_childWidths f W
  have hwf := (wfF_iff f).mp h
  have hcast : ((Frame.count f : ℚ)) =
      (Frame.self_count f : ℚ) + (sumCount (PTree.children f) : ℚ) := by
    rw [hwf.1]
    push_cast
    ring
  refine ⟨?_, ?_, ?_⟩
  · intro hc
    rw [hsum, if_pos hc]
    rw [show ((sumCount (PTree.children f) : ℚ)) =
      (Frame.count f : ℚ) - (Frame.self_count f : ℚ) by rw [hcast]; ring]
  · intro hc
    rw [hsum, if_neg (by omega)]
  · intro hs hc
    rw [hsum, if_pos hc]
    have hzero : ((sumCount (PTree.children f) : ℚ)) = (Frame.count f : ℚ) := by
      rw [hcast, hs]
      push_cast
      ring
    rw [hzero]
    have hne : ((Frame.count f : ℚ)) ≠ 0 := by
      have : (0 : ℚ) < (Frame.count f : ℚ) := by exact_mod_cast hc
      linarith
    field_simp

/-- Counterexample to C6 as stated: on input `a 1` / `a;b 1` the node `a`
(count 2, self 1) is rendered at width 1180 but its only child is assigned
width 590 — above the visibility threshold, yet the children's widths do not
sum to the node's width. -/
theorem C6_width_conservation_counterexample :
    (parse_folded ["a 1", "a;b 1"]).1 =
      PTree.mk "root" (2, 0) [PTree.mk "a" (2, 1) [PTree.mk "b" (1, 1) []]] ∧
    childWidths (PTree.mk "root" (2, 0) [PTree.mk "a" (2, 1) [PTree.mk "b" (1, 1) []]]) 1180 =
      [1180] ∧
    childWidths (PTree.mk "a" (2, 1) [PTree.mk "b" (1, 1) []]) 1180 = [590] ∧
    MIN_WIDTH_PX ≤ 590 ∧ ((590 : ℚ) ≠ 1180) := by
  refine ⟨rfl, ?_, ?_, by norm_num [MIN_WIDTH_PX], by norm_num⟩
  · norm_num [childWidths]
  · norm_num [childWidths]

/-- Witness for the amended C6 at a concrete zero-self node: the single
child receives the full parent width. -/
theorem C6_width_conservation_witness :
    wfF (PTree.mk "a" (2, 0) [PTree.mk "b" (2, 2) []]) = true ∧
    (childWidths (PTree.mk "a" (2, 0) [PTree.mk "b" (2, 2) []]) 100).sum = 100 := by
  refine ⟨by decide, ?_⟩
  exact (C6_width_conservation_amended (PTree.mk "a" (2, 0) [PTree.mk "b" (2, 2) []]) 100
    (by decide)).2.2 rfl (by decide)

-- ── Claim C8: name_to_color (flamegraph.py lines 93-116) ───────────────
-- `hashlib.md5` is an external library primitive; the color pipeline is
-- embedded as a function of the 32-bit value `h = int(md5(name)[:8], 16)`
-- and the hash itself is an arbitrary function `md5h : String → Nat`.
-- The HSV→RGB arithmetic is exact over ℚ (Python `int` of the nonnegative
-- values occurring here is the floor).

def hueN (h : Nat) : Nat := h % 60

def satN (h : Nat) : Nat := 160 + (h >>> 8) % 55

def valN (h : Nat) : Nat := 200 + (h >>> 16) % 56

def hfQ (h : Nat) : ℚ := (hueN h : ℚ) / 60

def sQ (h : Nat) : ℚ := (satN h : ℚ) / 255

def vQ (h : Nat) : ℚ := (valN h : ℚ) / 255

def cQ (h : Nat) : ℚ := vQ h * sQ h

def xQ (h : Nat) : ℚ := cQ h * (1 - |if hfQ h ≤ 1 then hfQ h else hfQ h - 1|)

def mQ (h : Nat) : ℚ := vQ h - cQ h

/-- `(rf, gf, bf)` (flamegraph.py lines 108-111). -/
def rgbF (h : Nat) : ℚ × ℚ × ℚ := if hfQ h < 1 then (cQ h, xQ h, 0) else (xQ h, cQ h, 0)

/-- `name_to_color` after the md5 step (flamegraph.py lines 96-116). -/
def name_to_color_h (h : Nat) : Int × Int × Int :=
  (⌊((rgbF h).1 + mQ h) * 255⌋, ⌊((rgbF h).2.1 + mQ h) * 255⌋,
   ⌊((rgbF h).2.2 + mQ h) * 55 + 30⌋)

/-- The color `render_frame` uses for a frame (flamegraph.py lines 144-147):
fixed neutral gray at depth 0, the hashed warm palette everywhere else. -/
def frameColor (md5h : String → Nat) (depth : Nat) (name : String) : Int × Int × Int :=
  if depth = 0 then (200, 200, 200) else name_to_color_h (md5h name)

theorem hueN_lt (h : Nat) : hueN h < 60 := Nat.mod_lt _ (by norm_num)

theorem satN_bounds (h : Nat) : 160 ≤ satN h ∧ satN h ≤ 214 := by
  have := Nat.mod_lt (h >>> 8) (show 0 < 55 by norm_num)
  unfold satN
  omega

theorem valN_bounds (h : Nat) : 200 ≤ valN h ∧ valN h ≤ 255 := by
  have := Nat.mod_lt (h >>> 16) (show 0 < 56 by norm_num)
  unfold valN
  omega

theorem hfQ_bounds (h : Nat) : 0 ≤ hfQ h ∧ hfQ h < 1 := by
  constructor
  · unfold hfQ
    positivity
  · rw [hfQ, div_lt_one (by norm_num)]
    exact_mod_cast hueN_lt h

theorem sQ_bounds (h : Nat) : 0 < sQ h ∧ sQ h < 1 := by
  have hb := satN_bounds h
  constructor
  · rw [sQ]
    have : (160 : ℚ) ≤ (satN h : ℚ) := by exact_mod_cast hb.1
    positivity
  · rw [sQ, div_lt_one (by norm_num)]
    have : (satN h : ℚ) ≤ 214 := by exact_mod_cast hb.2
    linarith

theorem vQ_bounds (h : Nat) : 0 < vQ h ∧ vQ h ≤ 1 := by
  have hb := valN_bounds h
  constructor
  · rw [vQ]
    have : (200 : ℚ) ≤ (valN h : ℚ) := by exact_mod_cast hb.1
    positivity
  · rw [vQ, div_le_one (by norm_num)]
    exact_mod_cast hb.2

theorem cQ_bounds (h : Nat) : 0 < cQ h ∧ cQ h ≤ vQ h := by
  have hs := sQ_bounds h
  have hv := vQ_bounds h
  constructor
  · exact mul_pos hv.1 hs.1
  · rw [cQ]
    nlinarith [hv.1, hs.2]

theorem mQ_bounds (h : Nat) : 0 ≤ mQ h ∧ mQ h ≤ vQ h := by
  have hc := cQ_bounds h
  constructor
  · rw [mQ]
    linarith [hc.2]
  · rw [mQ]
    linarith [hc.1]

theorem xQ_bounds (h : Nat) : 0 ≤ xQ h ∧ xQ h ≤ cQ h := by
  have hf := hfQ_bounds h
  have hc := cQ_bounds h
  have habs : |if hfQ h ≤ 1 then hfQ h else hfQ h - 1| = hfQ h := by
    rw [if_pos (le_of_lt hf.2), abs_of_nonneg hf.1]
  constructor
  · rw [xQ, habs]
    have h1 : (0 : ℚ) ≤ 1 - hfQ h := by linarith [hf.2]
    exact mul_nonneg (le_of_lt hc.1) h1
  · rw [xQ, habs]
    nlinarith [hc.1, hf.1]

theorem name_to_color_h_red (h : Nat) : (name_to_color_h h).1 = (valN h : Int) := by
  rw [name_to_color_h, rgbF, if_pos (hfQ_bounds h).2]
  have : (cQ h + mQ h) * 255 = (valN h : ℚ) := by
    rw [mQ, vQ]
    field_simp
    ring
  rw [this]
  exact Int.floor_natCast _

/-- C8.  The identity palette is a pure function of the name (same name,
same RGB triple), every channel of the hashed color lies in `[0, 255]`, and
the depth-0 root is always rendered in the fixed neutral gray
`(200, 200, 200)` rather than the hashed color. -/
theorem C8_color_determinism_range :
    (∀ (md5h : String → Nat) (d : Nat) (n₁ n₂ : String), n₁ = n₂ →
      frameColor md5h d n₁ = frameColor md5h d n₂) ∧
    (∀ h : Nat,
      0 ≤ (name_to_color_h h).1 ∧ (name_to_color_h h).1 ≤ 255 ∧
      0 ≤ (name_to_color_h h).2.1 ∧ (name_to_color_h h).2.1 ≤ 255 ∧
      0 ≤ (name_to_color_h h).2.2 ∧ (name_to_color_h h).2.2 ≤ 255) ∧
    (∀ (md5h : String → Nat) (name : String),
      frameColor md5h 0 name = (200, 200, 200)) := by
  refine ⟨fun md5h d n₁ n₂ hn => by rw [hn], ?_, fun md5h name => by rw [frameColor, if_pos rfl]⟩
  intro h
  have hv := vQ_bounds h
  have hc := cQ_bounds h
  have hm := mQ_bounds h
  have hx := xQ_bounds h
  have hval := valN_bounds h
  have hred := name_to_color_h_red h
  have hcm : cQ h + mQ h = vQ h := by rw [mQ]; ring
  refine ⟨?_, ?_, ?_, ?_, ?_, ?_⟩
  · rw [hred]
    exact_mod_cast Nat.zero_le _
  · rw [hred]
    exact_mod_cast hval.2
  · rw [name_to_color_h, rgbF, if_pos (hfQ_bounds h).2]
    show 0 ≤ ⌊(xQ h + mQ h) * 255⌋
    exact Int.floor_nonneg.mpr (by nlinarith [hx.1, hm.1])
  · rw [name_to_color_h, rgbF, if_pos (hfQ_bounds h).2]
    show ⌊(xQ h + mQ h) * 255⌋ ≤ 255
    have hle : (xQ h + mQ h) * 255 ≤ 255 := by linarith [hx.2, hv.2, hcm]
    calc ⌊(xQ h + mQ h) * 255⌋ ≤ ⌊(255 : ℚ)⌋ := Int.floor_le_floor hle
      _ = 255 := by norm_num
  · rw [name_to_color_h, rgbF, if_pos (hfQ_bounds h).2]
    show 0 ≤ ⌊((0 : ℚ) + mQ h) * 55 + 30⌋
    exact Int.floor_nonneg.mpr (by nlinarith [hm.1])
  · rw [name_to_color_h, rgbF, if_pos (hfQ_bounds h).2]
    show ⌊((0 : ℚ) + mQ h) * 55 + 30⌋ ≤ 255
    have hle : ((0 : ℚ) + mQ h) * 55 + 30 ≤ 255 := by linarith [hm.2, hv.2]
    calc ⌊((0 : ℚ) + mQ h) * 55 + 30⌋ ≤ ⌊(255 : ℚ)⌋ := Int.floor_le_floor hle
      _ = 255 := by norm_num

/-- Witness for C8 at a concrete hash function, name, and depth. -/
theorem C8_color_determinism_range_witness :
    frameColor (fun _ => 7) 1 "main" = frameColor (fun _ => 7) 1 "main" ∧
    frameColor (fun _ => 7) 0 "main" = (200, 200, 200) := by
  exact ⟨C8_color_determinism_range.1 (fun _ => 7) 1 "main" "main" rfl,
    C8_color_determinism_range.2.2 (fun _ => 7) "main"⟩

-- ── Claim C9: CLI exit behavior (flamegraph.py main / flamediff.py main) ──

/-- Observable outcome of a tool run: process exit code, the fatal
diagnostic printed to stderr (if any), and whether the SVG was produced. -/
structure ToolRun where
  exitCode : Nat
  diagnostic : Option String
  svgWritten : Bool

/-- `main` of flamegraph.py (lines 347-373), given the input lines: empty
input and zero-total input exit 1 with a diagnostic and no SVG. -/
def flamegraph_main (lines : List String) : ToolRun :=
  if lines = [] then ⟨1, some "flamegraph.py: no input", false⟩
  else if (parse_folded lines).2 = 0 then
    ⟨1, some "flamegraph.py: no samples found in input", false⟩
  else ⟨0, none, true⟩

/-- Argument surface of flamediff.py: positional `files`, `-a` (`--before`),
`-b` (`--after`). -/
structure DiffArgs where
  files : List String
  before : Option String
  after : Option String

/-- Python `x or y` on an optional string (`None` and `""` are falsy). -/
def pyOr (a : Option String) (b : String) : Option String :=
  match a with
  | none => some b
  | some s => if s = "" then some b else some s

/-- Input-file resolution (flamediff.py lines 343-350). -/
def resolveFiles (args : DiffArgs) : Option String × Option String :=
  match args.files with
  | [] => (args.before, args.after)
  | [f1] => (pyOr args.before f1, args.after)
  | f1 :: f2 :: _ => (pyOr args.before f1, pyOr args.after f2)

/-- `main` of flamediff.py (lines 330-377), given the argument record and
the file contents.  When fewer than two usable files resolve, the source
calls `parser.error(...)`, and argparse's documented behavior is to print a
usage message and exit with status 2 (not 1); a zero-total profile exits
with status 1. -/
def flamediff_main (args : DiffArgs) (readFile : String → List String) : ToolRun :=
  match resolveFiles args with
  | (some bf, some af) =>
    if bf = "" ∨ af = "" then
      ⟨2, some "flamediff.py: error: Need two input files: before.folded after.folded", false⟩
    else if (parse_folded_diff (readFile bf)).2 = 0 then
      ⟨1, some ("flamediff.py: no samples in " ++ bf), false⟩
    else if (parse_folded_diff (readFile af)).2 = 0 then
      ⟨1, some ("flamediff.py: no samples in " ++ af), false⟩
    else ⟨0, none, true⟩
  | _ => ⟨2, some "flamediff.py: error: Need two input files: before.folded after.folded", false⟩

/-- `True` when two nonempty input filenames resolve from the arguments. -/
def resolvable (args : DiffArgs) : Bool :=
  match resolveFiles args with
  | (some bf, some af) => bf ≠ "" && af ≠ ""
  | _ => false

/-- Counterexample to C9 as stated: with a single positional file the
differential tool goes through `parser.error`, which exits with status 2,
not the claimed status 1. -/
theorem C9_exit_codes_counterexample :
    (flamediff_main ⟨["only.folded"], none, none⟩ (fun _ => ["a;b 1"])).exitCode = 2 ∧
    ((2 : Nat) ≠ 1) := by
  refine ⟨rfl, by decide⟩

/-- C9 (amended).  The single-profile tool exits with status 1, a
diagnostic, and no SVG on empty input or a zero sample total; the
differential tool exits with status 1 (diagnostic, no SVG) when either
resolved profile has a zero total, and exits with status 2 — argparse's
`parser.error` status, not 1 as claimed — when fewer than two usable input
files resolve from its arguments. -/
theorem C9_exit_codes_amended :
    (∀ lines : List String, lines = [] →
      (flamegraph_main lines).exitCode = 1 ∧ (flamegraph_main lines).diagnostic.isSome ∧
        (flamegraph_main lines).svgWritten = false) ∧
    (∀ lines : List String, (parse_folded lines).2 = 0 →
      (flamegraph_main lines).exitCode = 1 ∧ (flamegraph_main lines).diagnostic.isSome ∧
        (flamegraph_main lines).svgWritten = false) ∧
    (∀ lines : List String, lines ≠ [] → (parse_folded lines).2 ≠ 0 →
      (flamegraph_main lines).exitCode = 0 ∧ (flamegraph_main lines).svgWritten = true) ∧
    (∀ (args : DiffArgs) (readFile : String → List String) (bf af : String),
      resolveFiles args = (some bf, some af) → bf ≠ "" → af ≠ "" →
      ((parse_folded_diff (readFile bf)).2 = 0 →
        (flamediff_main args readFile).exitCode = 1 ∧
          (flamediff_main args readFile).diagnostic.isSome ∧
          (flamediff_main args readFile).svgWritten = false) ∧
      ((parse_folded_diff (readFile bf)).2 ≠ 0 → (parse_folded_diff (readFile af)).2 = 0 →
        (flamediff_main args readFile).exitCode = 1 ∧
          (flamediff_main args readFile).diagnostic.isSome ∧
          (flamediff_main args readFile).svgWritten = false)) ∧
    (∀ (args : DiffArgs) (readFile : String → List String),
      resolvable args = false → (flamediff_main args readFile).exitCode = 2) := by
  refine ⟨?_, ?_, ?_, ?_, ?_⟩
  · intro lines h
    rw [flamegraph_main, if_pos h]
    exact ⟨rfl, rfl, rfl⟩
  · intro lines h
    rw [flamegraph_main]
    by_cases hnil : lines = []
    · rw [if_pos hnil]
      exact ⟨rfl, rfl, rfl⟩
    · rw [if_neg hnil, if_pos h]
      exact ⟨rfl, rfl, rfl⟩
  · intro lines h1 h2
    rw [flamegraph_main, if_neg h1, if_neg h2]
    exact ⟨rfl, rfl⟩
  · intro args readFile bf af hres hbf haf
    have hne : ¬(bf = "" ∨ af = "") := by
      rintro (h | h)
      · exact hbf h
      · exact haf h
    constructor
    · intro hza
      simp only [flamediff_main, hres]
      rw [if_neg hne, if_pos hza]
      exact ⟨rfl, rfl, rfl⟩
    · intro hnza hzb
      simp only [flamediff_main, hres]
      rw [if_neg hne, if_neg hnza, if_pos hzb]
      exact ⟨rfl, rfl, rfl⟩
  · intro args readFile hres
    rw [resolvable] at hres
    cases h : resolveFiles args with
    | mk o1 o2 =>
      rw [h] at hres
      cases o1 with
      | none => simp only [flamediff_main, h]
      | some bf =>
        cases o2 with
        | none => simp only [flamediff_main, h]
        | some af =>
          simp at hres
          have hor : bf = "" ∨ af = "" := by
            by_cases hb : bf = ""
            · exact Or.inl hb
            · exact Or.inr (hres hb)
          simp only [flamediff_main, h]
          rw [if_pos hor]

/-- Witness for C9 at concrete inputs: empty input, comment-only input,
one zero-total profile, and a successful run. -/
theorem C9_exit_codes_witness :
    (flamegraph_main []).exitCode = 1 ∧
    (flamegraph_main ["# only a comment"]).exitCode = 1 ∧
    (flamegraph_main ["x;y 3"]).exitCode = 0 ∧
    (flamediff_main ⟨["b.folded", "a.folded"], none, none⟩
      (fun n => if n = "b.folded" then ["# nothing"] else ["x 1"])).exitCode = 1 := by
  refine ⟨(C9_exit_codes_amended.1 [] rfl).1,
    (C9_exit_codes_amended.2.1 ["# only a comment"] (by decide)).1,
    (C9_exit_codes_amended.2.2.1 ["x;y 3"] (by decide) (by decide)).1, ?_⟩
  exact ((C9_exit_codes_amended.2.2.2.1 ⟨["b.folded", "a.folded"], none, none⟩
    (fun n => if n = "b.folded" then ["# nothing"] else ["x 1"]) "b.folded" "a.folded"
    rfl (by decide) (by decide)).1 (by decide)).1

-- ── Claim C10: xml_escape and its use in the emitted markup ────────────

/-- The double-quote character. -/
def quoteChar : Char := Char.ofNat 34

/-- Python `s.replace(pat, rep)` for a single-character pattern: replace
every occurrence, left to right. -/
def replaceChar (pat : Char) (rep : List Char) : List Char → List Char
  | [] => []
  | c :: cs => if c = pat then rep ++ replaceChar pat rep cs else c :: replaceChar pat rep cs

/-- `xml_escape` (flamegraph.py lines 121-125, flamediff.py lines 159-163):
the four replacements applied in source order — `&` first, then `<`, `>`,
and the double quote. -/
def xmlEscapeL (cs : List Char) : List Char :=
  replaceChar quoteChar ['&', 'q', 'u', 'o', 't', ';']
    (replaceChar '>' ['&', 'g', 't', ';']
      (replaceChar '<' ['&', 'l', 't', ';']
        (replaceChar '&' ['&', 'a', 'm', 'p', ';'] cs)))

def xml_escape (s : String) : String := String.mk (xmlEscapeL s.toList)

/-- Per-character form of the escape map. -/
def escChar (c : Char) : List Char :=
  if c = '&' then ['&', 'a', 'm', 'p', ';']
  else if c = '<' then ['&', 'l', 't', ';']
  else if c = '>' then ['&', 'g', 't', ';']
  else if c = quoteChar then ['&', 'q', 'u', 'o', 't', ';']
  else [c]

def escL : List Char → List Char
  | [] => []
  | c :: cs => escChar c ++ escL cs

/-- No raw markup character (`<`, `>`, `"`) occurs in the list. -/
def noMarkup (cs : List Char) : Bool :=
  cs.all (fun c => !(c = '<' || c = '>' || c = quoteChar))

/-- Every `&` in the list begins one of the four emitted entities. -/
def entitiesOk : List Char → Bool
  | [] => true
  | c :: rest =>
    if c = '&' then
      if rest.take 4 = ['a', 'm', 'p', ';'] then entitiesOk (rest.drop 4)
      else if rest.take 3 = ['l', 't', ';'] then entitiesOk (rest.drop 3)
      else if rest.take 3 = ['g', 't', ';'] then entitiesOk (rest.drop 3)
      else if rest.take 5 = ['q', 'u', 'o', 't', ';'] then entitiesOk (rest.drop 5)
      else false
    else entitiesOk rest
termination_by cs => cs.length
decreasing_by
all_goals simp [List.length_drop]
all_goals omega

theorem replaceChar_append (pat : Char) (rep : List Char) (xs ys : List Char) :
    replaceChar pat rep (xs ++ ys) = replaceChar pat rep xs ++ replaceChar pat rep ys := by
  induction xs with
  | nil => simp [replaceChar]
  | cons c cs ih => by_cases h : c = pat <;> simp [replaceChar, h, ih]

theorem xmlEscapeL_append (xs ys : List Char) :
    xmlEscapeL (xs ++ ys) = xmlEscapeL xs ++ xmlEscapeL ys := by
  simp [xmlEscapeL, replaceChar_append]

theorem xmlEscapeL_singleton (c : Char) : xmlEscapeL [c] = escChar c := by
  by_cases h1 : c = '&'
  · subst h1
    rfl
  · by_cases h2 : c = '<'
    · subst h2
      rfl
    · by_cases h3 : c = '>'
      · subst h3
        rfl
      · by_cases h4 : c = quoteChar
        · subst h4
          rfl
        · simp [xmlEscapeL, replaceChar, escChar, h1, h2, h3, h4]

theorem xmlEscapeL_eq_escL (cs : List Char) : xmlEscapeL cs = escL cs := by
  induction cs with
  | nil => rfl
  | cons c rest ih =>
    have : (c :: rest) = [c] ++ rest := rfl
    rw [this, xmlEscapeL_append, xmlEscapeL_singleton, ih]
    rfl

theorem noMarkup_escChar (c : Char) : noMarkup (escChar c) = true := by
  by_cases h1 : c = '&'
  · subst h1
    rfl
  · by_cases h2 : c = '<'
    · subst h2
      rfl
    · by_cases h3 : c = '>'
      · subst h3
        rfl
      · by_cases h4 : c = quoteChar
        · subst h4
          rfl
        · simp [escChar, noMarkup, h1, h2, h3, h4]

theorem noMarkup_escL (cs : List Char) : noMarkup (escL cs) = true := by
  induction cs with
  | nil => rfl
  | cons c rest ih =>
    have hc := noMarkup_escChar c
    unfold noMarkup at ih hc ⊢
    rw [escL, List.all_append, hc, ih]
    rfl

theorem entitiesOk_escL (cs : List Char) : entitiesOk (escL cs) = true := by
  induction cs with
  | nil =>
    rw [show escL [] = [] from rfl]
    simp [entitiesOk]
  | cons c rest ih =>
    rw [escL]
    by_cases h1 : c = '&'
    · subst h1
      rw [show escChar '&' = ['&', 'a', 'm', 'p', ';'] from rfl]
      simpa [entitiesOk] using ih
    · by_cases h2 : c = '<'
      · subst h2
        rw [show escChar '<' = ['&', 'l', 't', ';'] from rfl]
        simpa [entitiesOk] using ih
      · by_cases h3 : c = '>'
        · subst h3
          rw [show escChar '>' = ['&', 'g', 't', ';'] from rfl]
          simpa [entitiesOk] using ih
        · by_cases h4 : c = quoteChar
          · subst h4
            rw [show escChar quoteChar = ['&', 'q', 'u', 'o', 't', ';'] from rfl]
            simpa [entitiesOk] using ih
          · rw [show escChar c = [c] by simp [escChar, h1, h2, h3, h4]]
            simpa [entitiesOk, h1] using ih

/-- `<title>` content for a frame (flamegraph.py lines 158-159); the numeric
fields are abstracted as pre-rendered strings. -/
def frameTitleMarkup (name countStr pctStr selfPart : String) : String :=
  "<title>" ++ xml_escape name ++ " (" ++ countStr ++ " samples, " ++ pctStr ++ "%" ++
    selfPart ++ ")</title>"

/-- `<rect ... data-name="..."/>` for a frame (flamegraph.py lines 160-163);
geometry and fill are abstracted as pre-rendered strings. -/
def frameRectMarkup (name geomAttrs colorStr : String) : String :=
  "<rect " ++ geomAttrs ++ "fill=\"" ++ colorStr ++ "\" rx=\"1\" ry=\"1\" class=\"frame\" " ++
    "data-name=\"" ++ xml_escape name ++ "\" />"

/-- `<text ...>label</text>` for a frame (flamegraph.py lines 168-170). -/
def frameLabelMarkup (name fontAttrs : String) : String :=
  "<text " ++ fontAttrs ++ ">" ++ xml_escape name ++ "</text>"

/-- C10.  `xml_escape` is exactly the per-character escape map applied by
the four ordered replacements; its output contains no raw `<`, `>` or `"`
and every `&` in it starts one of the four entities; and the tooltip title,
the rect `data-name` attribute, and the text label all embed
`xml_escape name`, never the raw name. -/
theorem C10_escaped_names :
    (∀ cs : List Char, xmlEscapeL cs = escL cs) ∧
    (∀ s : String, noMarkup (xml_escape s).toList = true) ∧
    (∀ s : String, entitiesOk (xml_escape s).toList = true) ∧
    (∀ name countStr pctStr selfPart : String,
      frameTitleMarkup name countStr pctStr selfPart =
        "<title>" ++ xml_escape name ++
          (" (" ++ countStr ++ " samples, " ++ pctStr ++ "%" ++ selfPart ++ ")</title>")) ∧
    (∀ name geomAttrs colorStr : String,
      frameRectMarkup name geomAttrs colorStr =
        ("<rect " ++ geomAttrs ++ "fill=\"" ++ colorStr ++ "\" rx=\"1\" ry=\"1\" class=\"frame\" " ++
          "data-name=\"") ++ xml_escape name ++ "\" />") ∧
    (∀ name fontAttrs : String,
      frameLabelMarkup name fontAttrs =
        ("<text " ++ fontAttrs ++ ">") ++ xml_escape name ++ "</text>") := by
  refine ⟨xmlEscapeL_eq_escL, ?_, ?_, ?_, ?_, ?_⟩
  · intro s
    show noMarkup (xmlEscapeL s.toList) = true
    rw [xmlEscapeL_eq_escL]
    exact noMarkup_escL s.toList
  · intro s
    show entitiesOk (xmlEscapeL s.toList) = true
    rw [xmlEscapeL_eq_escL]
    exact entitiesOk_escL s.toList
  · intro name countStr pctStr selfPart
    rw [frameTitleMarkup]
    simp [String.append_assoc]
  · intro name geomAttrs colorStr
    rw [frameRectMarkup]
  · intro name fontAttrs
    rw [frameLabelMarkup]

-- ── Claim C7: order-independence of the sorted tree ────────────────────
-- Strategy: an order-insensitive "canonical" insertion `insC` keeps the
-- child lists name-sorted; we show (1) `insC` steps commute, (2) sorting
-- after a raw `insP` step equals a canonical step on the sorted tree, so
-- the sorted result of the whole build is a fold of commuting steps, which
-- is invariant under permutations of the input.

/-- Fetch-or-create in a name-sorted child list: apply `g` to the child
named `fn`, or place `dflt` at its sorted position. -/
def insOrd (fn : String) (g : PTree α → PTree α) (dflt : PTree α) :
    List (PTree α) → List (PTree α)
  | [] => [dflt]
  | c :: cs =>
    if c.name = fn then g c :: cs
    else if fn < c.name then dflt :: c :: cs
    else c :: insOrd fn g dflt cs

/-- Canonical (sorted-children) counterpart of `insP`. -/
def insC [Add α] (inc leafE : α) : List String → PTree α → PTree α
  | [], .mk n v ch => .mk n (v + leafE) ch
  | fn :: rest, .mk n v ch =>
      .mk n v (insOrd fn (fun c => insC inc leafE rest (c.bump inc))
        (insC inc leafE rest (.mk fn inc [])) ch)

theorem bump_name [Add α] (t : PTree α) (a : α) : (t.bump a).name = t.name := by
  cases t
  rfl

theorem insC_name [Add α] (inc leafE : α) (p : List String) (t : PTree α) :
    (insC inc leafE p t).name = t.name := by
  cases p <;> cases t <;> simp [insC]

theorem bump_bump [AddCommMonoid α] (t : PTree α) (a b : α) :
    (t.bump a).bump b = (t.bump b).bump a := by
  cases t
  simp [PTree.bump, add_assoc, add_comm b]

theorem bump_insC [AddCommMonoid α] (inc leafE : α) (p : List String) (t : PTree α) (a : α) :
    (insC inc leafE p t).bump a = insC inc leafE p (t.bump a) := by
  cases p with
  | nil =>
    cases t
    simp [insC, PTree.bump, add_assoc, add_comm leafE a]
  | cons fn rest =>
    cases t
    simp [insC, PTree.bump]

theorem insOrd_nil (fn : String) (g : PTree α → PTree α) (d : PTree α) :
    insOrd fn g d [] = [d] := rfl

theorem insOrd_cons_eq (fn : String) (g : PTree α → PTree α) (d : PTree α)
    (c : PTree α) (cs : List (PTree α)) (h : c.name = fn) :
    insOrd fn g d (c :: cs) = g c :: cs := by
  simp only [insOrd]
  rw [if_pos h]

theorem insOrd_cons_lt (fn : String) (g : PTree α → PTree α) (d : PTree α)
    (c : PTree α) (cs : List (PTree α)) (h1 : ¬c.name = fn) (h2 : fn < c.name) :
    insOrd fn g d (c :: cs) = d :: c :: cs := by
  simp only [insOrd]
  rw [if_neg h1, if_pos h2]

theorem insOrd_cons_gt (fn : String) (g : PTree α → PTree α) (d : PTree α)
    (c : PTree α) (cs : List (PTree α)) (h1 : ¬c.name = fn) (h2 : ¬fn < c.name) :
    insOrd fn g d (c :: cs) = c :: insOrd fn g d cs := by
  simp only [insOrd]
  rw [if_neg h1, if_neg h2]

theorem insOrd_comm (fn gn : String) (F1 F2 : PTree α → PTree α) (D1 D2 : PTree α)
    (hF1 : ∀ c, (F1 c).name = c.name) (hF2 : ∀ c, (F2 c).name = c.name)
    (hD1 : D1.name = fn) (hD2 : D2.name = gn)
    (hEqF : fn = gn → ∀ c, F1 (F2 c) = F2 (F1 c))
    (hEqD : fn = gn → F1 D2 = F2 D1) :
    ∀ ch : List (PTree α),
      insOrd fn F1 D1 (insOrd gn F2 D2 ch) = insOrd gn F2 D2 (insOrd fn F1 D1 ch) := by
  intro ch
  induction ch with
  | nil =>
    rw [insOrd_nil, insOrd_nil]
    by_cases hfg : fn = gn
    · rw [insOrd_cons_eq fn F1 D1 D2 [] (by rw [hD2, hfg]),
        insOrd_cons_eq gn F2 D2 D1 [] (by rw [hD1, hfg]), hEqD hfg]
    · have hgf : ¬gn = fn := fun h => hfg h.symm
      rcases lt_or_gt_of_ne hfg with hlt | hgt
      · rw [insOrd_cons_lt fn F1 D1 D2 [] (by rw [hD2]; exact hgf) (by rw [hD2]; exact hlt),
          insOrd_cons_gt gn F2 D2 D1 [] (by rw [hD1]; exact hfg)
            (by rw [hD1]; exact not_lt.mpr (le_of_lt hlt)), insOrd_nil]
      · rw [insOrd_cons_gt fn F1 D1 D2 [] (by rw [hD2]; exact hgf)
            (by rw [hD2]; exact not_lt.mpr (le_of_lt hgt)), insOrd_nil,
          insOrd_cons_lt gn F2 D2 D1 [] (by rw [hD1]; exact hfg) (by rw [hD1]; exact hgt)]
  | cons c cs ih =>
    by_cases hcg : c.name = gn
    · by_cases hcf : c.name = fn
      · have hfg : fn = gn := by rw [← hcf, hcg]
        rw [insOrd_cons_eq gn F2 D2 c cs hcg,
          insOrd_cons_eq fn F1 D1 (F2 c) cs (by rw [hF2, hcf]),
          insOrd_cons_eq fn F1 D1 c cs hcf,
          insOrd_cons_eq gn F2 D2 (F1 c) cs (by rw [hF1, hcg]),
          hEqF hfg c]
      · have hfg : ¬fn = gn := fun h => hcf (hcg.trans h.symm)
        have hgf : ¬gn = fn := fun h => hfg h.symm
        rw [insOrd_cons_eq gn F2 D2 c cs hcg]
        by_cases hlt : fn < gn
        · rw [insOrd_cons_lt fn F1 D1 (F2 c) cs (by rw [hF2, hcg]; exact hgf)
              (by rw [hF2, hcg]; exact hlt),
            insOrd_cons_lt fn F1 D1 c cs hcf (by rw [hcg]; exact hlt),
            insOrd_cons_gt gn F2 D2 D1 (c :: cs) (by rw [hD1]; exact hfg)
              (by rw [hD1]; exact not_lt.mpr (le_of_lt hlt)),
            insOrd_cons_eq gn F2 D2 c cs hcg]
        · rw [insOrd_cons_gt fn F1 D1 (F2 c) cs (by rw [hF2, hcg]; exact hgf)
              (by rw [hF2, hcg]; exact hlt),
            insOrd_cons_gt fn F1 D1 c cs hcf (by rw [hcg]; exact hlt),
            insOrd_cons_eq gn F2 D2 c (insOrd fn F1 D1 cs) hcg]
    · by_cases hcf : c.name = fn
      · have hfg : ¬fn = gn := fun h => hcg (hcf.trans h)
        have hgf : ¬gn = fn := fun h => hfg h.symm
        rw [insOrd_cons_eq fn F1 D1 c cs hcf]
        by_cases hgt : gn < fn
        · rw [insOrd_cons_lt gn F2 D2 c cs hcg (by rw [hcf]; exact hgt),
            insOrd_cons_gt fn F1 D1 D2 (c :: cs) (by rw [hD2]; exact hgf)
              (by rw [hD2]; exact not_lt.mpr (le_of_lt hgt)),
            insOrd_cons_eq fn F1 D1 c cs hcf,
            insOrd_cons_lt gn F2 D2 (F1 c) cs (by rw [hF1, hcf]; exact hfg)
              (by rw [hF1, hcf]; exact hgt)]
        · rw [insOrd_cons_gt gn F2 D2 c cs hcg (by rw [hcf]; exact hgt),
            insOrd_cons_eq fn F1 D1 c (insOrd gn F2 D2 cs) hcf,
            insOrd_cons_gt gn F2 D2 (F1 c) cs (by rw [hF1, hcf]; exact hfg)
              (by rw [hF1, hcf]; exact hgt)]
      · by_cases h1 : gn < c.name
        · by_cases h2 : fn < c.name
          · rw [insOrd_cons_lt gn F2 D2 c cs hcg h1, insOrd_cons_lt fn F1 D1 c cs hcf h2]
            by_cases hfg : fn = gn
            · rw [insOrd_cons_eq fn F1 D1 D2 (c :: cs) (by rw [hD2, hfg]),
                insOrd_cons_eq gn F2 D2 D1 (c :: cs) (by rw [hD1, hfg]), hEqD hfg]
            · have hgf : ¬gn = fn := fun h => hfg h.symm
              rcases lt_or_gt_of_ne hfg with hlt | hgt
              · rw [insOrd_cons_lt fn F1 D1 D2 (c :: cs) (by rw [hD2]; exact hgf)
                    (by rw [hD2]; exact hlt),
                  insOrd_cons_gt gn F2 D2 D1 (c :: cs) (by rw [hD1]; exact hfg)
                    (by rw [hD1]; exact not_lt.mpr (le_of_lt hlt)),
                  insOrd_cons_lt gn F2 D2 c cs hcg h1]
              · rw [insOrd_cons_gt fn F1 D1 D2 (c :: cs) (by rw [hD2]; exact hgf)
                    (by rw [hD2]; exact not_lt.mpr (le_of_lt hgt)),
                  insOrd_cons_lt fn F1 D1 c cs hcf h2,
                  insOrd_cons_lt gn F2 D2 D1 (c :: cs) (by rw [hD1]; exact hfg)
                    (by rw [hD1]; exact hgt)]
          · have hgnfn : gn < fn := lt_of_lt_of_le h1 (not_lt.mp h2)
            have hfg : ¬fn = gn := fun h => absurd (h ▸ hgnfn) (lt_irrefl _)
            have hgf : ¬gn = fn := fun h => hfg h.symm
            rw [insOrd_cons_lt gn F2 D2 c cs hcg h1,
              insOrd_cons_gt fn F1 D1 D2 (c :: cs) (by rw [hD2]; exact hgf)
                (by rw [hD2]; exact not_lt.mpr (le_of_lt hgnfn)),
              insOrd_cons_gt fn F1 D1 c cs hcf h2,
              insOrd_cons_lt gn F2 D2 c (insOrd fn F1 D1 cs) hcg h1]
        · by_cases h2 : fn < c.name
          · have hfngn : fn < gn := lt_of_lt_of_le h2 (not_lt.mp h1)
            have hfg : ¬fn = gn := ne_of_lt hfngn
            have hgf : ¬gn = fn := fun h => hfg h.symm
            rw [insOrd_cons_gt gn F2 D2 c cs hcg h1,
              insOrd_cons_lt fn F1 D1 c (insOrd gn F2 D2 cs) hcf h2,
              insOrd_cons_lt fn F1 D1 c cs hcf h2,
              insOrd_cons_gt gn F2 D2 D1 (c :: cs) (by rw [hD1]; exact hfg)
                (by rw [hD1]; exact not_lt.mpr (le_of_lt hfngn)),
              insOrd_cons_gt gn F2 D2 c cs hcg h1]
          · rw [insOrd_cons_gt gn F2 D2 c cs hcg h1,
              insOrd_cons_gt fn F1 D1 c (insOrd gn F2 D2 cs) hcf h2,
              insOrd_cons_gt fn F1 D1 c cs hcf h2,
              insOrd_cons_gt gn F2 D2 c (insOrd fn F1 D1 cs) hcg h1, ih]

theorem insC_comm_aux [AddCommMonoid α] :
    ∀ (N : Nat) (p q : List String) (i1 l1 i2 l2 : α) (t : PTree α),
      p.length + q.length ≤ N →
      insC i1 l1 p (insC i2 l2 q t) = insC i2 l2 q (insC i1 l1 p t) := by
  intro N
  induction N with
  | zero =>
    intro p q i1 l1 i2 l2 t h
    have hp : p = [] := List.length_eq_zero.mp (by omega)
    have hq : q = [] := List.length_eq_zero.mp (by omega)
    subst hp
    subst hq
    cases t
    simp [insC, add_assoc, add_comm l2 l1]
  | succ N ih =>
    intro p q i1 l1 i2 l2 t h
    cases p with
    | nil =>
      cases q with
      | nil =>
        cases t
        simp [insC, add_assoc, add_comm l2 l1]
      | cons gn qr =>
        cases t
        simp [insC]
    | cons fn pr =>
      cases q with
      | nil =>
        cases t
        simp [insC]
      | cons gn qr =>
        cases t with
        | mk n v ch =>
          simp only [insC, PTree.mk.injEq, true_and]
          refine insOrd_comm fn gn _ _ _ _
            (fun c => by rw [insC_name, bump_name])
            (fun c => by rw [insC_name, bump_name])
            (by rw [insC_name]; rfl) (by rw [insC_name]; rfl) ?_ ?_ ch
          · intro hfg c
            rw [bump_insC, bump_insC]
            rw [ih pr qr i1 l1 i2 l2 ((c.bump i2).bump i1) (by simp at h; omega)]
            rw [bump_bump]
          · intro hfg
            subst hfg
            rw [bump_insC, bump_insC]
            have hb2 : (PTree.mk fn i2 ([] : List (PTree α))).bump i1 =
                PTree.mk fn (i2 + i1) [] := rfl
            have hb1 : (PTree.mk fn i1 ([] : List (PTree α))).bump i2 =
                PTree.mk fn (i1 + i2) [] := rfl
            rw [hb2, hb1, add_comm i2 i1]
            exact ih pr qr i1 l1 i2 l2 (PTree.mk fn (i1 + i2) []) (by simp at h; omega)

theorem insC_comm [AddCommMonoid α] (p q : List String) (i1 l1 i2 l2 : α) (t : PTree α) :
    insC i1 l1 p (insC i2 l2 q t) = insC i2 l2 q (insC i1 l1 p t) :=
  insC_comm_aux (p.length + q.length) p q i1 l1 i2 l2 t le_rfl

/-- One canonical per-line step: bump the root, then insert the path. -/
def insLine [Add α] (inc leafE : α) (funcs : List String) (t : PTree α) : PTree α :=
  insC inc leafE funcs (t.bump inc)

theorem insLine_comm [AddCommMonoid α] (i1 l1 i2 l2 : α) (p q : List String) (t : PTree α) :
    insLine i1 l1 p (insLine i2 l2 q t) = insLine i2 l2 q (insLine i1 l1 p t) := by
  rw [insLine, insLine, insLine, insLine]
  rw [bump_insC, bump_insC, insC_comm, bump_bump]

theorem sortTree_mk (n : String) (v : α) (ch : List (PTree α)) :
    sortTree (PTree.mk n v ch) = PTree.mk n v (sortList ch) := by
  simp only [sortTree]

theorem sortList_nil : sortList ([] : List (PTree α)) = [] := by
  simp only [sortList]

theorem sortList_cons (c : PTree α) (cs : List (PTree α)) :
    sortList (c :: cs) = insertByName (sortTree c) (sortList cs) := by
  simp only [sortList]

theorem sortTree_name (t : PTree α) : (sortTree t).name = t.name := by
  cases t
  rw [sortTree_mk]
  rfl

theorem sortTree_bump [Add α] (t : PTree α) (a : α) :
    sortTree (t.bump a) = (sortTree t).bump a := by
  cases t
  rw [PTree.bump_mk, sortTree_mk, sortTree_mk, PTree.bump_mk]

theorem sortTree_leaf (n : String) (v : α) :
    sortTree (PTree.mk n v []) = PTree.mk n v [] := by
  rw [sortTree_mk, sortList_nil]

theorem insertByName_nil (g : PTree α) : insertByName g [] = [g] := rfl

theorem insertByName_cons_le (g c : PTree α) (cs : List (PTree α)) (h : g.name ≤ c.name) :
    insertByName g (c :: cs) = g :: c :: cs := by
  simp only [insertByName]
  rw [if_pos h]

theorem insertByName_cons_gt (g c : PTree α) (cs : List (PTree α)) (h : ¬g.name ≤ c.name) :
    insertByName g (c :: cs) = c :: insertByName g cs := by
  simp only [insertByName]
  rw [if_neg h]

theorem insOrd_insertByName_self (fn : String) (F : PTree α → PTree α) (D : PTree α)
    (g : PTree α) (hg : g.name = fn) (hFg : (F g).name = fn) :
    ∀ L : List (PTree α), fn ∉ L.map PTree.name →
      insOrd fn F D (insertByName g L) = insertByName (F g) L := by
  intro L
  induction L with
  | nil =>
    intro _
    rw [insertByName_nil, insOrd_cons_eq fn F D g [] hg, insertByName_nil]
  | cons h t ih =>
    intro hmem
    have hh : ¬h.name = fn := by
      intro he
      apply hmem
      rw [List.map_cons, ← he]
      exact List.mem_cons_self _ _
    have hmem' : fn ∉ t.map PTree.name := by
      intro hm
      exact hmem (by rw [List.map_cons]; exact List.mem_cons_of_mem _ hm)
    by_cases hle : g.name ≤ h.name
    · rw [insertByName_cons_le g h t hle, insOrd_cons_eq fn F D g (h :: t) hg,
        insertByName_cons_le (F g) h t (by rw [hFg, ← hg]; exact hle)]
    · have hhg : h.name < fn := by
        have := not_le.mp hle
        rw [hg] at this
        exact this
      rw [insertByName_cons_gt g h t hle,
        insOrd_cons_gt fn F D h (insertByName g t) hh (not_lt.mpr (le_of_lt hhg)),
        ih hmem',
        insertByName_cons_gt (F g) h t (by rw [hFg, ← hg]; exact hle)]

theorem insertByName_insOrd (fn : String) (F : PTree α → PTree α) (D : PTree α)
    (hF : ∀ c, (F c).name = c.name) (hD : D.name = fn)
    (h : PTree α) (hh : ¬h.name = fn) :
    ∀ L : List (PTree α),
      insertByName h (insOrd fn F D L) = insOrd fn F D (insertByName h L) := by
  intro L
  induction L with
  | nil =>
    rw [insOrd_nil, insertByName_nil]
    by_cases hle : h.name ≤ D.name
    · have hlt : h.name < fn := lt_of_le_of_ne (hD ▸ hle) hh
      rw [insertByName_cons_le h D [] hle,
        insOrd_cons_gt fn F D h [] hh (not_lt.mpr (le_of_lt hlt)), insOrd_nil]
    · have hlt : fn < h.name := by
        have := not_le.mp hle
        rw [hD] at this
        exact this
      rw [insertByName_cons_gt h D [] hle, insertByName_nil,
        insOrd_cons_lt fn F D h [] hh hlt]
  | cons e t ih =>
    by_cases hef : e.name = fn
    · rw [insOrd_cons_eq fn F D e t hef]
      by_cases hle : h.name ≤ e.name
      · have hlt : h.name < fn := lt_of_le_of_ne (hef ▸ hle) hh
        rw [insertByName_cons_le h (F e) t (by rw [hF]; exact hle),
          insertByName_cons_le h e t hle,
          insOrd_cons_gt fn F D h (e :: t) hh (not_lt.mpr (le_of_lt hlt)),
          insOrd_cons_eq fn F D e t hef]
      · rw [insertByName_cons_gt h (F e) t (by rw [hF]; exact hle),
          insertByName_cons_gt h e t hle,
          insOrd_cons_eq fn F D e (insertByName h t) hef]
    · by_cases hlt : fn < e.name
      · rw [insOrd_cons_lt fn F D e t hef hlt]
        by_cases hle1 : h.name ≤ fn
        · have hlt1 : h.name < fn := lt_of_le_of_ne hle1 hh
          rw [insertByName_cons_le h D (e :: t) (hD ▸ hle1),
            insertByName_cons_le h e t (le_of_lt (lt_trans hlt1 hlt)),
            insOrd_cons_gt fn F D h (e :: t) hh (not_lt.mpr (le_of_lt hlt1)),
            insOrd_cons_lt fn F D e t hef hlt]
        · have hfh : fn < h.name := not_le.mp hle1
          rw [insertByName_cons_gt h D (e :: t) (fun hle => hle1 (hD ▸ hle))]
          by_cases hle2 : h.name ≤ e.name
          · rw [insertByName_cons_le h e t hle2,
              insOrd_cons_lt fn F D h (e :: t) hh hfh]
          · rw [insertByName_cons_gt h e t hle2,
              insOrd_cons_lt fn F D e (insertByName h t) hef hlt]
      · have hef2 : e.name < fn := lt_of_le_of_ne (not_lt.mp hlt) hef
        rw [insOrd_cons_gt fn F D e t hef hlt]
        by_cases hle : h.name ≤ e.name
        · have hlt1 : h.name < fn := lt_of_le_of_lt hle hef2
          rw [insertByName_cons_le h e (insOrd fn F D t) hle,
            insertByName_cons_le h e t hle,
            insOrd_cons_gt fn F D h (e :: t) hh (not_lt.mpr (le_of_lt hlt1)),
            insOrd_cons_gt fn F D e t hef hlt]
        · rw [insertByName_cons_gt h e (insOrd fn F D t) hle,
            insertByName_cons_gt h e t hle,
            insOrd_cons_gt fn F D e (insertByName h t) hef hlt, ih]

theorem insertByName_perm (g : PTree α) (L : List (PTree α)) :
    (insertByName g L).Perm (g :: L) := by
  induction L with
  | nil => exact List.Perm.refl _
  | cons c cs ih =>
    by_cases hle : g.name ≤ c.name
    · rw [insertByName_cons_le g c cs hle]
    · rw [insertByName_cons_gt g c cs hle]
      exact List.Perm.trans (ih.cons c) (List.Perm.swap g c cs)

theorem sortList_perm (L : List (PTree α)) : (sortList L).Perm (L.map sortTree) := by
  induction L with
  | nil =>
    rw [sortList_nil, List.map_nil]
  | cons c cs ih =>
    rw [sortList_cons, List.map_cons]
    exact ((insertByName_perm _ _).trans (ih.cons _))

theorem names_sortList (L : List (PTree α)) :
    ((sortList L).map PTree.name).Perm (L.map PTree.name) := by
  have h1 := (sortList_perm L).map PTree.name
  have h2 : (L.map sortTree).map PTree.name = L.map PTree.name := by
    rw [List.map_map]
    exact List.map_congr_left (fun c _ => sortTree_name c)
  rw [h2] at h1
  exact h1

theorem not_mem_names_sortList (L : List (PTree α)) (fn : String)
    (h : fn ∉ L.map PTree.name) : fn ∉ (sortList L).map PTree.name :=
  fun hm => h ((names_sortList L).mem_iff.mp hm)

theorem nodupNames_iff (L : List (PTree α)) :
    nodupNames L = true ↔ (L.map PTree.name).Nodup := by
  induction L with
  | nil => simp [nodupNames]
  | cons c cs ih =>
    simp only [nodupNames, Bool.and_eq_true, Bool.not_eq_true', List.map_cons,
      List.nodup_cons, ih, List.any_eq_false, List.mem_map]
    constructor
    · rintro ⟨h1, h2⟩
      refine ⟨?_, h2⟩
      rintro ⟨d, hd, hdn⟩
      have := h1 d hd
      simp at this
      exact this hdn
    · rintro ⟨h1, h2⟩
      refine ⟨?_, h2⟩
      intro d hd
      simp
      intro hdn
      exact h1 ⟨d, hd, hdn⟩

theorem replaceFirst_nil (fn : String) (g : PTree α → PTree α) (d : PTree α) :
    replaceFirst fn g d [] = [d] := rfl

theorem replaceFirst_cons_eq (fn : String) (g : PTree α → PTree α) (d : PTree α)
    (c : PTree α) (cs : List (PTree α)) (h : c.name = fn) :
    replaceFirst fn g d (c :: cs) = g c :: cs := by
  simp only [replaceFirst]
  rw [if_pos h]

theorem replaceFirst_cons_ne (fn : String) (g : PTree α → PTree α) (d : PTree α)
    (c : PTree α) (cs : List (PTree α)) (h : ¬c.name = fn) :
    replaceFirst fn g d (c :: cs) = c :: replaceFirst fn g d cs := by
  simp only [replaceFirst]
  rw [if_neg h]

theorem uniqT_mk (n : String) (v : α) (ch : List (PTree α)) :
    uniqT (PTree.mk n v ch) = (nodupNames ch && uniqL ch) := by
  simp only [uniqT]

theorem uniqL_nil : uniqL ([] : List (PTree α)) = true := by
  simp only [uniqL]

theorem uniqL_cons (c : PTree α) (cs : List (PTree α)) :
    uniqL (c :: cs) = (uniqT c && uniqL cs) := by
  simp only [uniqL]

theorem uniqT_leaf (n : String) (v : α) : uniqT (PTree.mk n v []) = true := by
  rw [uniqT_mk, uniqL_nil]
  rfl

theorem uniqT_bump [Add α] (t : PTree α) (a : α) : uniqT (t.bump a) = uniqT t := by
  cases t
  rw [PTree.bump_mk, uniqT_mk, uniqT_mk]

theorem uniqL_mem (ch : List (PTree α)) (h : uniqL ch = true) (c : PTree α) (hc : c ∈ ch) :
    uniqT c = true := by
  induction ch with
  | nil => cases hc
  | cons x xs ih =>
    rw [uniqL_cons, Bool.and_eq_true] at h
    rcases List.mem_cons.mp hc with he | hm
    · rw [he]
      exact h.1
    · exact ih h.2 hm

theorem uniqL_replaceFirst (fn : String) (g : PTree α → PTree α) (d : PTree α)
    (hg : ∀ c, uniqT c = true → uniqT (g c) = true) (hd : uniqT d = true)
    (ch : List (PTree α)) (hch : uniqL ch = true) :
    uniqL (replaceFirst fn g d ch) = true := by
  induction ch with
  | nil =>
    rw [replaceFirst_nil, uniqL_cons, uniqL_nil, hd]
    rfl
  | cons c cs ih =>
    rw [uniqL_cons, Bool.and_eq_true] at hch
    by_cases h : c.name = fn
    · rw [replaceFirst_cons_eq fn g d c cs h, uniqL_cons, hg c hch.1, hch.2]
      rfl
    · rw [replaceFirst_cons_ne fn g d c cs h, uniqL_cons, hch.1, ih hch.2]
      rfl

theorem replaceFirst_names (fn : String) (g : PTree α → PTree α) (d : PTree α)
    (hg : ∀ c, (g c).name = c.name) (hd : d.name = fn) :
    ∀ ch : List (PTree α), (replaceFirst fn g d ch).map PTree.name =
      if fn ∈ ch.map PTree.name then ch.map PTree.name
      else ch.map PTree.name ++ [fn] := by
  intro ch
  induction ch with
  | nil => simp [replaceFirst_nil, hd]
  | cons c cs ih =>
    by_cases h : c.name = fn
    · rw [replaceFirst_cons_eq fn g d c cs h]
      have hmem : fn ∈ (c :: cs).map PTree.name := by
        rw [List.map_cons, ← h]
        exact List.mem_cons_self _ _
      rw [if_pos hmem, List.map_cons, List.map_cons, hg, h]
    · rw [replaceFirst_cons_ne fn g d c cs h, List.map_cons, ih, List.map_cons]
      by_cases hm : fn ∈ cs.map PTree.name
      · have : fn ∈ c.name :: cs.map PTree.name := List.mem_cons_of_mem _ hm
        rw [if_pos hm, if_pos this]
      · have : fn ∉ c.name :: cs.map PTree.name := by
          intro hx
          rcases List.mem_cons.mp hx with he | hmm
          · exact h he.symm
          · exact hm hmm
        rw [if_neg hm, if_neg this, List.cons_append]

theorem uniqT_insP [Add α] (inc leafE : α) :
    ∀ (p : List String) (t : PTree α), uniqT t = true →
      uniqT (insP inc leafE p t) = true := by
  intro p
  induction p with
  | nil =>
    intro t h
    cases t with
    | mk n v ch =>
      rw [show insP inc leafE [] (PTree.mk n v ch) = PTree.mk n (v + leafE) ch from rfl,
        uniqT_mk]
      rw [uniqT_mk] at h
      exact h
  | cons fn rest ih =>
    intro t h
    cases t with
    | mk n v ch =>
      rw [uniqT_mk, Bool.and_eq_true] at h
      rw [show insP inc leafE (fn :: rest) (PTree.mk n v ch) =
        PTree.mk n v (replaceFirst fn (fun c => insP inc leafE rest (c.bump inc))
          (insP inc leafE rest (PTree.mk fn inc [])) ch) from rfl, uniqT_mk]
      have hnames := replaceFirst_names fn
        (fun c => insP inc leafE rest (c.bump inc))
        (insP inc leafE rest (PTree.mk fn inc []))
        (fun c => by rw [insP_name, bump_name])
        (by rw [insP_name]; rfl) ch
      have hnodup : nodupNames (replaceFirst fn (fun c => insP inc leafE rest (c.bump inc))
          (insP inc leafE rest (PTree.mk fn inc [])) ch) = true := by
        rw [nodupNames_iff, hnames]
        by_cases hm : fn ∈ ch.map PTree.name
        · rw [if_pos hm]
          exact (nodupNames_iff ch).mp h.1
        · rw [if_neg hm]
          refine List.Nodup.append ((nodupNames_iff ch).mp h.1) (by simp) ?_
          intro x hx hxf
          simp at hxf
          exact hm (hxf ▸ hx)
      have huniq : uniqL (replaceFirst fn (fun c => insP inc leafE rest (c.bump inc))
          (insP inc leafE rest (PTree.mk fn inc [])) ch) = true := by
        refine uniqL_replaceFirst fn _ _ (fun c hc => ?_) ?_ ch h.2
        · exact ih (c.bump inc) (by rw [uniqT_bump]; exact hc)
        · exact ih (PTree.mk fn inc []) (uniqT_leaf fn inc)
      rw [hnodup, huniq]
      rfl

theorem sortList_replaceFirst [Add α] (fn : String)
    (F F' : PTree α → PTree α) (D D' : PTree α)
    (hFname : ∀ c, (F c).name = c.name) (hF'name : ∀ c, (F' c).name = c.name)
    (hDname : D.name = fn) (hD'name : D'.name = fn)
    (hDD : sortTree D = D') :
    ∀ ch : List (PTree α), (ch.map PTree.name).Nodup →
      (∀ c ∈ ch, sortTree (F c) = F' (sortTree c)) →
      sortList (replaceFirst fn F D ch) = insOrd fn F' D' (sortList ch) := by
  intro ch
  induction ch with
  | nil =>
    intro _ _
    rw [replaceFirst_nil, sortList_cons, sortList_nil, insertByName_nil, hDD,
      insOrd_nil]
  | cons c cs ih =>
    intro hnodup hFF
    rw [List.map_cons, List.nodup_cons] at hnodup
    by_cases hcf : c.name = fn
    · rw [replaceFirst_cons_eq fn F D c cs hcf, sortList_cons, sortList_cons,
        hFF c (List.mem_cons_self _ _)]
      rw [insOrd_insertByName_self fn F' D' (sortTree c)
        (by rw [sortTree_name]; exact hcf)
        (by rw [hF'name, sortTree_name]; exact hcf)
        (sortList cs)
        (not_mem_names_sortList cs fn (by rw [← hcf]; exact hnodup.1))]
    · rw [replaceFirst_cons_ne fn F D c cs hcf, sortList_cons,
        ih hnodup.2 (fun x hx => hFF x (List.mem_cons_of_mem _ hx)), sortList_cons,
        insertByName_insOrd fn F' D' hF'name hD'name (sortTree c)
          (by rw [sortTree_name]; exact hcf) (sortList cs)]

theorem sortTree_insP [Add α] (inc leafE : α) :
    ∀ (p : List String) (t : PTree α), uniqT t = true →
      sortTree (insP inc leafE p t) = insC inc leafE p (sortTree t) := by
  intro p
  induction p with
  | nil =>
    intro t _
    cases t with
    | mk n v ch =>
      rw [show insP inc leafE [] (PTree.mk n v ch) = PTree.mk n (v + leafE) ch from rfl,
        sortTree_mk, sortTree_mk,
        show insC inc leafE [] (PTree.mk n v (sortList ch)) =
          PTree.mk n (v + leafE) (sortList ch) from rfl]
  | cons fn rest ih =>
    intro t huniq
    cases t with
    | mk n v ch =>
      rw [uniqT_mk, Bool.and_eq_true] at huniq
      rw [show insP inc leafE (fn :: rest) (PTree.mk n v ch) =
        PTree.mk n v (replaceFirst fn (fun c => insP inc leafE rest (c.bump inc))
          (insP inc leafE rest (PTree.mk fn inc [])) ch) from rfl,
        sortTree_mk, sortTree_mk,
        show insC inc leafE (fn :: rest) (PTree.mk n v (sortList ch)) =
          PTree.mk n v (insOrd fn (fun c => insC inc leafE rest (c.bump inc))
            (insC inc leafE rest (PTree.mk fn inc [])) (sortList ch)) from rfl]
      congr 1
      refine sortList_replaceFirst fn _ _ _ _
        (fun c => by rw [insP_name, bump_name]) (fun c => by rw [insC_name, bump_name])
        (by rw [insP_name]; rfl) (by rw [insC_name]; rfl)
        ?_ ch ((nodupNames_iff ch).mp huniq.1) ?_
      · rw [ih (PTree.mk fn inc []) (uniqT_leaf fn inc), sortTree_leaf]
      · intro c hc
        rw [ih (c.bump inc) (by rw [uniqT_bump]; exact uniqL_mem ch huniq.2 c hc),
          sortTree_bump]

/-- The accepted (path, count) items of the input, in line order. -/
def parsedItems (lines : List String) : List (List String × Nat) :=
  (lines.filterMap parseLine).map (fun sc => (pySplitSemi sc.1, sc.2))

theorem parse_fold_eq : ∀ (lines : List String) (t : Frame) (tot : Nat),
    (lines.foldl parseStep (t, tot)).1 =
      (parsedItems lines).foldl (fun acc it => addStack acc it.1 it.2) t ∧
    (lines.foldl parseStep (t, tot)).2 = tot + ((parsedItems lines).map Prod.snd).sum := by
  intro lines
  induction lines with
  | nil =>
    intro t tot
    simp [parsedItems]
  | cons l ls ih =>
    intro t tot
    rw [List.foldl_cons]
    cases hp : parseLine l with
    | none =>
      have hitems : parsedItems (l :: ls) = parsedItems ls := by
        simp [parsedItems, List.filterMap_cons, hp]
      rw [hitems]
      simpa [parseStep, hp] using ih t tot
    | some sc =>
      have hitems : parsedItems (l :: ls) = (pySplitSemi sc.1, sc.2) :: parsedItems ls := by
        simp [parsedItems, List.filterMap_cons, hp]
      rw [hitems]
      simp only [parseStep, hp, List.foldl_cons]
      have hih := ih (addStack t (pySplitSemi sc.1) sc.2) (tot + sc.2)
      exact ⟨hih.1, by rw [hih.2, List.map_cons, List.sum_cons]; omega⟩

/-- Canonical per-line step for the single-profile build. -/
def addStackC (f : Frame) (funcs : List String) (count : Nat) : Frame :=
  insLine (count, 0) (0, count) funcs f

theorem sortTree_addStack (f : Frame) (funcs : List String) (c : Nat)
    (h : uniqT f = true) :
    sortTree (addStack f funcs c) = addStackC (sortTree f) funcs c := by
  rw [addStack, addStackC, insLine,
    sortTree_insP _ _ funcs (f.bump (c, 0)) (by rw [uniqT_bump]; exact h),
    sortTree_bump]

theorem uniqT_addStack (f : Frame) (funcs : List String) (c : Nat)
    (h : uniqT f = true) : uniqT (addStack f funcs c) = true := by
  rw [addStack]
  exact uniqT_insP _ _ funcs _ (by rw [uniqT_bump]; exact h)

theorem sortTree_fold_addStack :
    ∀ (items : List (List String × Nat)) (t : Frame), uniqT t = true →
      sortTree (items.foldl (fun acc it => addStack acc it.1 it.2) t) =
        items.foldl (fun acc it => addStackC acc it.1 it.2) (sortTree t) := by
  intro items
  induction items with
  | nil =>
    intro t _
    rfl
  | cons it its ih =>
    intro t h
    rw [List.foldl_cons, List.foldl_cons, ih _ (uniqT_addStack t it.1 it.2 h),
      sortTree_addStack t it.1 it.2 h]

theorem addStackC_comm (t : Frame) (it1 it2 : List String × Nat) :
    addStackC (addStackC t it1.1 it1.2) it2.1 it2.2 =
      addStackC (addStackC t it2.1 it2.2) it1.1 it1.2 := by
  rw [addStackC, addStackC, addStackC, addStackC]
  exact insLine_comm _ _ _ _ _ _ t

theorem foldl_perm_of_comm {β γ : Type} (f : β → γ → β)
    (hf : ∀ b x y, f (f b x) y = f (f b y) x) :
    ∀ {l1 l2 : List γ}, l1.Perm l2 → ∀ b, l1.foldl f b = l2.foldl f b := by
  intro l1 l2 hp
  induction hp with
  | nil => intro b; rfl
  | cons x _ ih =>
    intro b
    rw [List.foldl_cons, List.foldl_cons, ih]
  | swap x y l =>
    intro b
    rw [List.foldl_cons, List.foldl_cons, List.foldl_cons, List.foldl_cons, hf]
  | trans _ _ ih1 ih2 =>
    intro b
    rw [ih1, ih2]

theorem parse_sorted_eq (lines : List String) :
    sortTree (parse_folded lines).1 =
      (parsedItems lines).foldl (fun acc it => addStackC acc it.1 it.2)
        (PTree.mk "root" (0, 0) []) := by
  rw [parse_folded, (parse_fold_eq lines (PTree.mk "root" (0, 0) []) 0).1,
    sortTree_fold_addStack (parsedItems lines) _ (uniqT_leaf _ _), sortTree_leaf]

theorem parse_sorted_perm (lines1 lines2 : List String) (h : lines1.Perm lines2) :
    sortTree (parse_folded lines1).1 = sortTree (parse_folded lines2).1 := by
  rw [parse_sorted_eq, parse_sorted_eq]
  exact foldl_perm_of_comm _ (fun b x y => addStackC_comm b x y)
    ((h.filterMap parseLine).map _) _

theorem parse_total_perm (lines1 lines2 : List String) (h : lines1.Perm lines2) :
    (parse_folded lines1).2 = (parse_folded lines2).2 := by
  rw [parse_folded, parse_folded, (parse_fold_eq lines1 _ 0).2, (parse_fold_eq lines2 _ 0).2]
  have hp : (parsedItems lines1).Perm (parsedItems lines2) :=
    (h.filterMap parseLine).map _
  rw [(hp.map Prod.snd).sum_eq]

-- Differential side: the aggregated maps of permuted inputs have equal
-- lookups and permuted key lists, so the key-union fold gives the same
-- sorted tree.

/-- The accepted (stack, count) items of a flamediff input. -/
def diffItems (lines : List String) : List (String × Nat) :=
  lines.filterMap parseLine

theorem diff_fold_map_eq : ∀ (lines : List String) (m : List (String × Nat)) (tot : Nat),
    (lines.foldl diffParseStep (m, tot)).1 =
      (diffItems lines).foldl (fun acc sc => upsert acc sc.1 sc.2) m := by
  intro lines
  induction lines with
  | nil =>
    intro m tot
    simp [diffItems]
  | cons l ls ih =>
    intro m tot
    rw [List.foldl_cons]
    cases hp : parseLine l with
    | none =>
      have hitems : diffItems (l :: ls) = diffItems ls := by
        simp [diffItems, List.filterMap_cons, hp]
      rw [hitems]
      simpa [diffParseStep, hp] using ih m tot
    | some sc =>
      have hitems : diffItems (l :: ls) = sc :: diffItems ls := by
        simp [diffItems, List.filterMap_cons, hp]
      rw [hitems, List.foldl_cons]
      simpa [diffParseStep, hp] using ih (upsert m sc.1 sc.2) (tot + sc.2)

theorem lookup0_upsert_self (m : List (String × Nat)) (k : String) (v : Nat) :
    lookup0 (upsert m k v) k = lookup0 m k + v := by
  induction m with
  | nil =>
    rw [show upsert [] k v = [(k, v)] from rfl, lookup0_cons_self]
    simp [lookup0]
  | cons e rest ih =>
    by_cases he : e.1 = k
    · rw [show upsert (e :: rest) k v = (e.1, e.2 + v) :: rest by
        simp only [upsert]; rw [if_pos he]]
      rw [show ((e.1, e.2 + v) : String × Nat) = (k, e.2 + v) by rw [he]]
      rw [lookup0_cons_self]
      rw [show (e : String × Nat) = (k, e.2) by rw [← he]]
      rw [lookup0_cons_self]
    · rw [show upsert (e :: rest) k v = e :: upsert rest k v by
        simp only [upsert]; rw [if_neg he]]
      rw [lookup0_cons_ne e _ k he, lookup0_cons_ne e rest k he, ih]

theorem lookup0_upsert_ne (m : List (String × Nat)) (k : String) (v : Nat)
    (k' : String) (h : ¬k' = k) : lookup0 (upsert m k v) k' = lookup0 m k' := by
  induction m with
  | nil =>
    rw [show upsert [] k v = [(k, v)] from rfl,
      lookup0_cons_ne (k, v) [] k' (fun hk => h hk.symm)]
  | cons e rest ih =>
    by_cases he : e.1 = k
    · rw [show upsert (e :: rest) k v = (e.1, e.2 + v) :: rest by
        simp only [upsert]; rw [if_pos he]]
      by_cases he' : e.1 = k'
      · exact absurd (he' ▸ he) (fun hk => h hk)
      · rw [lookup0_cons_ne (e.1, e.2 + v) rest k' he', lookup0_cons_ne e rest k' he']
    · rw [show upsert (e :: rest) k v = e :: upsert rest k v by
        simp only [upsert]; rw [if_neg he]]
      by_cases he' : e.1 = k'
      · rw [show (e : String × Nat) = (k', e.2) by rw [← he']]
        rw [lookup0_cons_self, lookup0_cons_self]
      · rw [lookup0_cons_ne e _ k' he', lookup0_cons_ne e rest k' he', ih]

theorem lookup0_fold_upsert (k : String) :
    ∀ (items : List (String × Nat)) (m : List (String × Nat)),
      lookup0 (items.foldl (fun acc sc => upsert acc sc.1 sc.2) m) k =
        lookup0 m k + ((items.filter (fun sc => sc.1 = k)).map Prod.snd).sum := by
  intro items
  induction items with
  | nil =>
    intro m
    simp
  | cons sc its ih =>
    intro m
    rw [List.foldl_cons, ih]
    by_cases hk : sc.1 = k
    · rw [show upsert m sc.1 sc.2 = upsert m k sc.2 by rw [hk], lookup0_upsert_self]
      simp [List.filter_cons, hk]
      omega
    · rw [lookup0_upsert_ne m sc.1 sc.2 k (fun h => hk h.symm)]
      simp [List.filter_cons, hk]

theorem lookup0_parse_diff (lines : List String) (k : String) :
    lookup0 (parse_folded_diff lines).1 k =
      (((diffItems lines).filter (fun sc => sc.1 = k)).map Prod.snd).sum := by
  rw [parse_folded_diff, diff_fold_map_eq lines [] 0, lookup0_fold_upsert]
  simp [lookup0]

theorem diffItems_count_pos (lines : List String) (sc : String × Nat)
    (h : sc ∈ diffItems lines) : 1 ≤ sc.2 := by
  rw [diffItems] at h
  obtain ⟨line, _, hp⟩ := List.mem_filterMap.mp h
  exact parseLine_count_pos line sc.1 sc.2 (by rw [hp])

theorem upsert_values_pos (m : List (String × Nat)) (k : String) (v : Nat)
    (hm : ∀ e ∈ m, 1 ≤ e.2) (hv : 1 ≤ v) : ∀ e ∈ upsert m k v, 1 ≤ e.2 := by
  induction m with
  | nil =>
    intro e he
    rw [show upsert [] k v = [(k, v)] from rfl] at he
    rcases List.mem_singleton.mp he with h
    rw [h]
    exact hv
  | cons x rest ih =>
    intro e he
    by_cases hx : x.1 = k
    · rw [show upsert (x :: rest) k v = (x.1, x.2 + v) :: rest by
        simp only [upsert]; rw [if_pos hx]] at he
      rcases List.mem_cons.mp he with h | h
      · rw [h]
        have := hm x (List.mem_cons_self _ _)
        omega
      · exact hm e (List.mem_cons_of_mem _ h)
    · rw [show upsert (x :: rest) k v = x :: upsert rest k v by
        simp only [upsert]; rw [if_neg hx]] at he
      rcases List.mem_cons.mp he with h | h
      · rw [h]
        exact hm x (List.mem_cons_self _ _)
      · exact ih (fun e' he' => hm e' (List.mem_cons_of_mem _ he')) e h

theorem fold_upsert_values_pos :
    ∀ (items : List (String × Nat)) (m : List (String × Nat)),
      (∀ e ∈ m, 1 ≤ e.2) → (∀ sc ∈ items, 1 ≤ sc.2) →
      ∀ e ∈ items.foldl (fun acc sc => upsert acc sc.1 sc.2) m, 1 ≤ e.2 := by
  intro items
  induction items with
  | nil =>
    intro m hm _
    simpa using hm
  | cons sc its ih =>
    intro m hm hs
    rw [List.foldl_cons]
    exact ih (upsert m sc.1 sc.2)
      (upsert_values_pos m sc.1 sc.2 hm (hs sc (List.mem_cons_self _ _)))
      (fun x hx => hs x (List.mem_cons_of_mem _ hx))

theorem parse_diff_values_pos (lines : List String) :
    ∀ e ∈ (parse_folded_diff lines).1, 1 ≤ e.2 := by
  rw [parse_folded_diff, diff_fold_map_eq lines [] 0]
  exact fold_upsert_values_pos (diffItems lines) [] (by simp) (diffItems_count_pos lines)

theorem lookup0_pos_of_mem (m : List (String × Nat)) (k : String)
    (hk : k ∈ m.map Prod.fst) (hv : ∀ e ∈ m, 1 ≤ e.2) : 1 ≤ lookup0 m k := by
  induction m with
  | nil => simp at hk
  | cons e rest ih =>
    by_cases he : e.1 = k
    · have h2 := hv e (List.mem_cons_self _ _)
      rw [show (e : String × Nat) = (k, e.2) by rw [← he], lookup0_cons_self]
      exact h2
    · rw [lookup0_cons_ne e rest k he]
      refine ih ?_ (fun x hx => hv x (List.mem_cons_of_mem _ hx))
      rw [List.map_cons] at hk
      rcases List.mem_cons.mp hk with h | h
      · exact absurd h.symm he
      · exact h

theorem mem_keys_iff_lookup0 (m : List (String × Nat)) (hv : ∀ e ∈ m, 1 ≤ e.2)
    (k : String) : k ∈ m.map Prod.fst ↔ lookup0 m k ≠ 0 := by
  constructor
  · intro hk
    have := lookup0_pos_of_mem m k hk hv
    omega
  · intro h
    by_contra hk
    exact h (lookup0_eq_zero_of_not_mem m k hk)

theorem lookup0_parse_perm (la1 la2 : List String) (h : la1.Perm la2) (k : String) :
    lookup0 (parse_folded_diff la1).1 k = lookup0 (parse_folded_diff la2).1 k := by
  rw [lookup0_parse_diff, lookup0_parse_diff]
  have hp : (diffItems la1).Perm (diffItems la2) := h.filterMap parseLine
  rw [((hp.filter _).map Prod.snd).sum_eq]

theorem keys_parse_perm (la1 la2 : List String) (h : la1.Perm la2) :
    (((parse_folded_diff la1).1).map Prod.fst).Perm
      (((parse_folded_diff la2).1).map Prod.fst) := by
  have h1 := nodup_keys_parse_diff la1 [] 0 (by simp)
  have h2 := nodup_keys_parse_diff la2 [] 0 (by simp)
  simp only [parse_folded_diff]
  rw [List.perm_ext_iff_of_nodup h1 h2]
  intro k
  show k ∈ (parse_folded_diff la1).1.map Prod.fst ↔ k ∈ (parse_folded_diff la2).1.map Prod.fst
  rw [mem_keys_iff_lookup0 _ (parse_diff_values_pos la1) k,
    mem_keys_iff_lookup0 _ (parse_diff_values_pos la2) k,
    lookup0_parse_perm la1 la2 h k]

theorem contains_eq_of_perm (l1 l2 : List String) (h : l1.Perm l2) (x : String) :
    l1.contains x = l2.contains x := by
  by_cases h1 : x ∈ l1
  · rw [List.contains_iff_exists_mem_beq.mpr ⟨x, h1, by simp⟩,
      List.contains_iff_exists_mem_beq.mpr ⟨x, h.mem_iff.mp h1, by simp⟩]
  · have h2 : x ∉ l2 := fun hm => h1 (h.mem_iff.mpr hm)
    have e1 : l1.contains x = false := by
      cases hc : l1.contains x
      · rfl
      · obtain ⟨b, hb, hxb⟩ := List.contains_iff_exists_mem_beq.mp hc
        simp at hxb
        exact absurd (hxb ▸ hb) h1
    have e2 : l2.contains x = false := by
      cases hc : l2.contains x
      · rfl
      · obtain ⟨b, hb, hxb⟩ := List.contains_iff_exists_mem_beq.mp hc
        simp at hxb
        exact absurd (hxb ▸ hb) h2
    rw [e1, e2]

theorem unionKeys_perm (sa1 sa2 sb1 sb2 : List (String × Nat))
    (ha : (sa1.map Prod.fst).Perm (sa2.map Prod.fst))
    (hb : (sb1.map Prod.fst).Perm (sb2.map Prod.fst)) :
    (unionKeys sa1 sb1).Perm (unionKeys sa2 sb2) := by
  rw [unionKeys, unionKeys]
  refine List.Perm.append ha ?_
  have hfilter : (sb2.map Prod.fst).filter (fun k => !(sa1.map Prod.fst).contains k) =
      (sb2.map Prod.fst).filter (fun k => !(sa2.map Prod.fst).contains k) :=
    List.filter_congr (fun x _ => by rw [contains_eq_of_perm _ _ ha x])
  have h1 := hb.filter (fun k => !(sa1.map Prod.fst).contains k)
  rw [hfilter] at h1
  exact h1

/-- Canonical per-key step for the differential build. -/
def diffTreeStepC (sa sb : List (String × Nat)) (t : DiffFrame) (k : String) : DiffFrame :=
  insLine ((lookup0 sa k, lookup0 sb k), (0, 0)) ((0, 0), (lookup0 sa k, lookup0 sb k))
    (pySplitSemi k) t

theorem sortTree_diffTreeStep (sa sb : List (String × Nat)) (t : DiffFrame) (k : String)
    (h : uniqT t = true) :
    sortTree (diffTreeStep sa sb t k) = diffTreeStepC sa sb (sortTree t) k := by
  rw [diffTreeStep, addDiffStack, diffTreeStepC, insLine,
    sortTree_insP _ _ _ _ (by rw [uniqT_bump]; exact h), sortTree_bump]

theorem uniqT_diffTreeStep (sa sb : List (String × Nat)) (t : DiffFrame) (k : String)
    (h : uniqT t = true) : uniqT (diffTreeStep sa sb t k) = true := by
  rw [diffTreeStep, addDiffStack]
  exact uniqT_insP _ _ _ _ (by rw [uniqT_bump]; exact h)

theorem sortTree_fold_diff (sa sb : List (String × Nat)) :
    ∀ (ks : List String) (t : DiffFrame), uniqT t = true →
      sortTree (ks.foldl (diffTreeStep sa sb) t) =
        ks.foldl (diffTreeStepC sa sb) (sortTree t) := by
  intro ks
  induction ks with
  | nil =>
    intro t _
    rfl
  | cons k ks ih =>
    intro t h
    rw [List.foldl_cons, List.foldl_cons, ih _ (uniqT_diffTreeStep sa sb t k h),
      sortTree_diffTreeStep sa sb t k h]

theorem diffTreeStepC_comm (sa sb : List (String × Nat)) (t : DiffFrame) (k1 k2 : String) :
    diffTreeStepC sa sb (diffTreeStepC sa sb t k1) k2 =
      diffTreeStepC sa sb (diffTreeStepC sa sb t k2) k1 := by
  rw [diffTreeStepC, diffTreeStepC, diffTreeStepC, diffTreeStepC]
  exact insLine_comm _ _ _ _ _ _ t

theorem foldl_congr_fun {β γ : Type} (f g : β → γ → β) (h : ∀ b x, f b x = g b x) :
    ∀ (l : List γ) (b : β), l.foldl f b = l.foldl g b := by
  intro l
  induction l with
  | nil => intro b; rfl
  | cons x xs ih =>
    intro b
    rw [List.foldl_cons, List.foldl_cons, h, ih]

theorem build_diff_sorted (sa sb : List (String × Nat)) (ta tb : Nat) :
    sortTree (build_diff_tree sa ta sb tb) =
      (unionKeys sa sb).foldl (diffTreeStepC sa sb)
        (PTree.mk "root" ((0, 0), (0, 0)) []) := by
  rw [build_diff_tree, sortTree_fold_diff sa sb _ _ (uniqT_leaf _ _), sortTree_leaf]

theorem diff_sorted_perm (la1 la2 lb1 lb2 : List String)
    (hA : la1.Perm la2) (hB : lb1.Perm lb2) :
    sortTree (build_diff_tree (parse_folded_diff la1).1 (parse_folded_diff la1).2
        (parse_folded_diff lb1).1 (parse_folded_diff lb1).2) =
      sortTree (build_diff_tree (parse_folded_diff la2).1 (parse_folded_diff la2).2
        (parse_folded_diff lb2).1 (parse_folded_diff lb2).2) := by
  rw [build_diff_sorted, build_diff_sorted]
  have hstep : ∀ (t : DiffFrame) (k : String),
      diffTreeStepC (parse_folded_diff la1).1 (parse_folded_diff lb1).1 t k =
        diffTreeStepC (parse_folded_diff la2).1 (parse_folded_diff lb2).1 t k := by
    intro t k
    rw [diffTreeStepC, diffTreeStepC, lookup0_parse_perm la1 la2 hA k,
      lookup0_parse_perm lb1 lb2 hB k]
  rw [foldl_congr_fun _ _ hstep (unionKeys (parse_folded_diff la1).1 (parse_folded_diff lb1).1)]
  exact foldl_perm_of_comm _ (fun b x y => diffTreeStepC_comm _ _ b x y)
    (unionKeys_perm _ _ _ _ (keys_parse_perm la1 la2 hA) (keys_parse_perm lb1 lb2 hB)) _

/-- C7.  Determinism under input reordering: permuting the input lines
changes neither the recursively sorted tree nor the total in single mode,
and permuting either profile's lines leaves the recursively sorted
differential tree unchanged — so the rendered geometry and colors, which
are functions of the sorted tree and the totals, are identical. -/
theorem C7_order_independence :
    (∀ lines1 lines2 : List String, lines1.Perm lines2 →
      sortTree (parse_folded lines1).1 = sortTree (parse_folded lines2).1 ∧
      (parse_folded lines1).2 = (parse_folded lines2).2) ∧
    (∀ la1 la2 lb1 lb2 : List String, la1.Perm la2 → lb1.Perm lb2 →
      sortTree (build_diff_tree (parse_folded_diff la1).1 (parse_folded_diff la1).2
          (parse_folded_diff lb1).1 (parse_folded_diff lb1).2) =
        sortTree (build_diff_tree (parse_folded_diff la2).1 (parse_folded_diff la2).2
          (parse_folded_diff lb2).1 (parse_folded_diff lb2).2)) := by
  constructor
  · intro lines1 lines2 h
    exact ⟨parse_sorted_perm lines1 lines2 h, parse_total_perm lines1 lines2 h⟩
  · intro la1 la2 lb1 lb2 hA hB
    exact diff_sorted_perm la1 la2 lb1 lb2 hA hB

/-- Witness for C7 on concrete two-line inputs given in both orders. -/
theorem C7_order_independence_witness :
    sortTree (parse_folded ["a;b 1", "c 2"]).1 = sortTree (parse_folded ["c 2", "a;b 1"]).1 ∧
    (parse_folded ["a;b 1", "c 2"]).2 = (parse_folded ["c 2", "a;b 1"]).2 ∧
    sortTree (build_diff_tree (parse_folded_diff ["a 1", "b 2"]).1
        (parse_folded_diff ["a 1", "b 2"]).2
        (parse_folded_diff ["c 3"]).1 (parse_folded_diff ["c 3"]).2) =
      sortTree (build_diff_tree (parse_folded_diff ["b 2", "a 1"]).1
        (parse_folded_diff ["b 2", "a 1"]).2
        (parse_folded_diff ["c 3"]).1 (parse_folded_diff ["c 3"]).2) := by
  refine ⟨(C7_order_independence.1 ["a;b 1", "c 2"] ["c 2", "a;b 1"]
      (List.Perm.swap "c 2" "a;b 1" [])).1,
    (C7_order_independence.1 ["a;b 1", "c 2"] ["c 2", "a;b 1"]
      (List.Perm.swap "c 2" "a;b 1" [])).2,
    C7_order_independence.2 ["a 1", "b 2"] ["b 2", "a 1"] ["c 3"] ["c 3"]
      (List.Perm.swap "b 2" "a 1" []) (List.Perm.refl _)⟩

end PerfEng
